import Mathlib

/- Formal model of FinderAI's indexing and retrieval subsystems
   (backend/indexer, backend/search, backend/db, backend/api/routes/index.py),
   shallowly embedded in Lean 4.

   Modelling conventions:
   - Python strings are Lean `String`s; the Python string operations used by the
     code (`in`, `split()`, `lower()`, `replace`, `startswith`, pathlib's
     `name`/`stem`/`suffix`) are re-implemented over character lists with
     structural (fuel-based) recursion so that every definition evaluates
     inside the kernel.
   - Python floats are modelled as exact rationals.
   - Stateful stores (the Chroma collection, the BM25 corpus, the SQLite
     tables) are explicit functional state records, and the methods become
     state-passing functions.
   - External collaborators (embedding provider, ChromaDB nearest-neighbour
     queries, BM25Okapi scoring, reranking providers, file I/O) are abstracted
     as parameters, or modelled from their documented interface where the
     calling code relies on a specific contract.
   - Python `dict`s preserve insertion order and `sort`/`sorted` are stable,
     so dictionaries become association lists and sorting is modelled with
     `List.insertionSort`, which is stable in the same sense. -/

namespace FinderAI

/-! ## Python string primitives -/

/-- Does `hay` start with `needle`? (character-list level). -/
def listStartsWith : List Char → List Char → Bool
  | [], _ => true
  | _ :: _, [] => false
  | a :: as, b :: bs => a == b && listStartsWith as bs

/-- Python substring test `needle in haystack` over character lists. -/
def listOccurs (needle : List Char) : List Char → Bool
  | [] => listStartsWith needle []
  | c :: t => listStartsWith needle (c :: t) || listOccurs needle t

/-- Python `needle in haystack` for strings. -/
def occursIn (needle haystack : String) : Bool :=
  listOccurs needle.data haystack.data

/-- Python `s.startswith(pre)`. -/
def pyStartsWith (s pre : String) : Bool :=
  listStartsWith pre.data s.data

/-- Python `s.endswith(suf)`. -/
def pyEndsWith (s suf : String) : Bool :=
  listStartsWith suf.data.reverse s.data.reverse

/-- Python `str.lower()` (ASCII case folding). -/
def pyLower (s : String) : String := String.mk (s.data.map Char.toLower)

/-- Python truthiness of `text.strip()` being empty: the text is empty or
whitespace-only. -/
def pyBlank (s : String) : Bool := s.data.all Char.isWhitespace

/-- Worker for `pySplit`; the fuel argument makes the recursion structural. -/
def pyWordsGo : Nat → List Char → List String
  | _, [] => []
  | 0, _ => []
  | fuel+1, c :: rest =>
    if c.isWhitespace then pyWordsGo fuel rest
    else
      String.mk (c :: rest.takeWhile (fun d => !d.isWhitespace)) ::
        pyWordsGo fuel (rest.dropWhile (fun d => !d.isWhitespace))

/-- Python `str.split()` with no arguments: split on whitespace runs, dropping
empty pieces. -/
def pySplit (s : String) : List String := pyWordsGo s.data.length s.data

/-- Worker for `pyReplace`: non-overlapping left-to-right replacement. -/
def replaceCharsGo (old new : List Char) : Nat → List Char → List Char
  | _, [] => []
  | 0, l => l
  | fuel+1, c :: rest =>
    if listStartsWith old (c :: rest) && !old.isEmpty then
      new ++ replaceCharsGo old new fuel ((c :: rest).drop old.length)
    else
      c :: replaceCharsGo old new fuel rest

/-- Python `s.replace(old, new)` for non-empty `old`. -/
def pyReplace (s old new : String) : String :=
  String.mk (replaceCharsGo old.data new.data s.data.length s.data)

/-- Split a character list at a separator character. -/
def splitAtChar (sep : Char) : List Char → List (List Char)
  | [] => [[]]
  | c :: rest =>
    match splitAtChar sep rest with
    | [] => [[]]
    | w :: ws => if c == sep then [] :: w :: ws else (c :: w) :: ws

/-- Model of `pathlib.Path(p).name`: the final path component. -/
def pathName (p : String) : String :=
  String.mk ((splitAtChar '/' p.data).getLastD [])

/-- Model of `pathlib.Path(p).parent.name`. -/
def pathParentName (p : String) : String :=
  match (splitAtChar '/' p.data).dropLast.getLast? with
  | some w => String.mk w
  | none => ""

/-- Index of the last `'.'` in a character list, if any. -/
def lastDotIdx (l : List Char) : Option Nat :=
  ((l.enum.filter (fun pr => pr.2 == '.')).getLast?).map (·.1)

/-- Model of `pathlib.Path(p).stem`: final component without its last suffix. -/
def pathStem (p : String) : String :=
  let n := (pathName p).data
  match lastDotIdx n with
  | some i => if i == 0 then String.mk n else String.mk (n.take i)
  | none => String.mk n

/-- Model of `pathlib.Path(p).suffix`. -/
def pathSuffix (p : String) : String :=
  let n := (pathName p).data
  match lastDotIdx n with
  | some i => if i == 0 then "" else String.mk (n.drop i)
  | none => ""

/-- Python `" ".join(ws)`. -/
def joinSpace : List String → String
  | [] => ""
  | [w] => w
  | w :: ws => w ++ " " ++ joinSpace ws

/-! ## Chunker (backend/indexer/chunker.py) -/

def CHUNK_SIZE_DEFAULT : Nat := 2000
def CHUNK_SIZE_PDF : Nat := 2000
def CHUNK_SIZE_DOCX : Nat := 900
def CHUNK_SIZE_XLSX : Nat := 1000
def CHUNK_OVERLAP_DEFAULT : Nat := 500
def CHUNK_OVERLAP_PDF : Nat := 500
def CHUNK_OVERLAP_DOCX : Nat := 200
def CHUNK_OVERLAP_XLSX : Nat := 200
def CHUNK_SIZE : Nat := CHUNK_SIZE_DEFAULT
def CHUNK_OVERLAP : Nat := CHUNK_OVERLAP_DEFAULT

/-- Collapse every maximal run of characters satisfying `p` whose length is at
least `threshold` into `repl` (model of the `re.sub` run-collapsing patterns);
fuel-structural. -/
def collapseRunsGo (p : Char → Bool) (threshold : Nat) (repl : List Char) :
    Nat → List Char → List Char
  | _, [] => []
  | 0, l => l
  | fuel+1, c :: rest =>
    if p c then
      (if threshold ≤ (c :: rest.takeWhile p).length then repl
       else c :: rest.takeWhile p) ++
        collapseRunsGo p threshold repl fuel (rest.dropWhile p)
    else c :: collapseRunsGo p threshold repl fuel rest

def collapseRuns (p : Char → Bool) (threshold : Nat) (repl : List Char)
    (l : List Char) : List Char :=
  collapseRunsGo p threshold repl l.length l

/-- Model of `normalize_text`: the five sequential `re.sub` rewrites of
chunker.py (long underscore runs, literal " | ", dot/dash/equals runs, and
whitespace runs of three or more). -/
def normalize_text (text : String) : String :=
  let s1 := collapseRuns (· == '_') 10 "__________".data text.data
  let s2 := replaceCharsGo " | ".data " ".data s1.length s1
  let s3 := collapseRuns (· == '.') 5 "...".data s2
  let s4 := collapseRuns (· == '-') 5 "---".data s3
  let s5 := collapseRuns (· == '=') 5 "===".data s4
  let s6 := collapseRuns (fun c => c.isWhitespace) 3 "  ".data s5
  String.mk s6

/-- Return (chunk_size, chunk_overlap) based on file type. -/
def get_chunk_params (file_path : String) : Nat × Nat :=
  let lower_path := pyLower file_path
  if pyEndsWith lower_path ".pdf" then (CHUNK_SIZE_PDF, CHUNK_OVERLAP_PDF)
  else if pyEndsWith lower_path ".docx" then (CHUNK_SIZE_DOCX, CHUNK_OVERLAP_DOCX)
  else if pyEndsWith lower_path ".xlsx" then (CHUNK_SIZE_XLSX, CHUNK_OVERLAP_XLSX)
  else (CHUNK_SIZE_DEFAULT, CHUNK_OVERLAP_DEFAULT)

/-- A chunk dict as produced by `chunk_text`. -/
structure Chunk where
  text : String
  file_path : String
  slide_number : Int
  chunk_index : Nat
deriving Repr, DecidableEq

/-- A chunk together with the token window it was built from (the window is
what the chunk-coverage contract speaks about; `chunk_text` projects it away). -/
structure ChunkWin where
  chunk : Chunk
  window : List String
  start : Nat
  stop : Nat
deriving Repr, DecidableEq

/-- The `while start < total_words` loop of `chunk_text`, fuel-structural.
Each step emits the window `words[start:end]` with `end = min (start + size)
total`; when `end` reaches the end the loop breaks, otherwise
`start := end - overlap` and the chunk index increments. -/
def chunkLoop (ctx path : String) (loc : Int) (words : List String)
    (size overlap : Nat) : Nat → Nat → Nat → List ChunkWin
  | 0, _, _ => []
  | fuel+1, start, idx =>
    if start < words.length then
      let e := min (start + size) words.length
      let cw := (words.drop start).take (e - start)
      let c : Chunk := ⟨ctx ++ joinSpace cw, path, loc, idx⟩
      if words.length ≤ e then [⟨c, cw, start, e⟩]
      else ⟨c, cw, start, e⟩ ::
        chunkLoop ctx path loc words size overlap fuel (e - overlap) (idx + 1)
    else []

/-- Model of `chunk_text`, keeping each chunk paired with its token window.
The guard, the normalization, the file-context header, the small-text single
chunk and the sliding-window loop mirror chunker.py lines 64-107. The loop is
run with fuel `words.length`, shown sufficient whenever `overlap < size`. -/
def chunk_text_wins (text file_path : String) (location_number : Int)
    (chunk_size chunk_overlap : Nat) : List ChunkWin :=
  if pyBlank text then []
  else
    let ntext := normalize_text text
    let file_context :=
      "File: " ++ pathName file_path ++ " (in " ++ pathParentName file_path ++
        " folder)\n\n"
    let words := pySplit ntext
    let total_words := words.length
    if total_words ≤ chunk_size then
      [⟨⟨file_context ++ ntext, file_path, location_number, 0⟩, words, 0,
        total_words⟩]
    else
      chunkLoop file_context file_path location_number words chunk_size
        chunk_overlap total_words 0 0

/-- Split text into overlapping chunks for embedding (chunker.py
`chunk_text`). -/
def chunk_text (text file_path : String) (location_number : Int)
    (chunk_size chunk_overlap : Nat) : List Chunk :=
  (chunk_text_wins text file_path location_number chunk_size chunk_overlap).map
    (·.chunk)

/-- One page/slide/sheet of extracted content. -/
structure ContentItem where
  slide_number : Option Int
  page_number : Option Int
  text : String
deriving Repr, DecidableEq

/-- Python `item.get("slide_number") or item.get("page_number", 0)`
(both a missing key and the value 0 are falsy). -/
def itemLocation (it : ContentItem) : Int :=
  match it.slide_number with
  | some n => if n = 0 then it.page_number.getD 0 else n
  | none => it.page_number.getD 0

/-- Chunk an entire document (chunker.py `chunk_document`). -/
def chunk_document (content : List ContentItem) (file_path : String)
    (chunk_size chunk_overlap : Nat) : List Chunk :=
  (content.map (fun item =>
    chunk_text item.text file_path (itemLocation item) chunk_size
      chunk_overlap)).flatten

/-! ## Reciprocal Rank Fusion (backend/search/retriever.py lines 36-78) -/

/-- One `doc_scores[doc_id] += 1.0 / (k + rank)` update of the insertion
ordered score dictionary: a missing key is initialised to 0.0 first. -/
def addScore (m : List (String × ℚ)) (id : String) (v : ℚ) :
    List (String × ℚ) :=
  if m.any (fun p => p.1 == id) then
    m.map (fun p => if p.1 == id then (p.1, p.2 + v) else p)
  else m ++ [(id, v)]

/-- The `for rank, (doc_id, _) in enumerate(ranked_list, start=1)` loop over
one ranked list. -/
def scoreListGo (k : ℚ) : List (String × ℚ) → Nat → List (String × ℚ) →
    List (String × ℚ)
  | m, _, [] => m
  | m, rank, e :: rest =>
    scoreListGo k (addScore m e.1 (1 / (k + (rank : ℚ)))) (rank + 1) rest

/-- Descending-score order used by `sorted(..., key=lambda x: x[1],
reverse=True)`. -/
def scoreGE (a b : String × ℚ) : Prop := b.2 ≤ a.2

instance : DecidableRel scoreGE :=
  fun a b => inferInstanceAs (Decidable (b.2 ≤ a.2))

instance : IsTotal (String × ℚ) scoreGE := ⟨fun a b => le_total b.2 a.2⟩

instance : IsTrans (String × ℚ) scoreGE :=
  ⟨fun _ _ _ h h' => le_trans h' h⟩

/-- Model of `reciprocal_rank_fusion`: accumulate `1/(k + rank)` per ranked
list into the insertion-ordered dict, then stable-sort descending by score
(Python's `sorted` is stable, as is `List.insertionSort`). -/
def reciprocal_rank_fusion (ranked_lists : List (List (String × ℚ)))
    (k : ℚ) : List (String × ℚ) :=
  List.insertionSort scoreGE
    (ranked_lists.foldl (fun m l => scoreListGo k m 1 l) [])

/-- Dictionary lookup with default 0.0 (the score a candidate has when it
appears in no list). -/
def getScore (m : List (String × ℚ)) (id : String) : ℚ :=
  match m.find? (fun p => p.1 == id) with
  | some p => p.2
  | none => 0

/-- The 1-based rank of a candidate in a ranked list, if present. -/
def rankOf (id : String) : List String → Option Nat
  | [] => none
  | x :: xs => if x = id then some 1 else (rankOf id xs).map (· + 1)

/-- The specification's per-list term: `1/(k + rank)` when the candidate
occupies 1-based `rank` in the list, 0 when it is absent. -/
def rankTerm (k : ℚ) (l : List (String × ℚ)) (id : String) : ℚ :=
  match rankOf id (l.map Prod.fst) with
  | some r => 1 / (k + (r : ℚ))
  | none => 0

/-- The specification's fused score over a pair of ranked lists. -/
def spec_rrf_score (k : ℚ) (l1 l2 : List (String × ℚ)) (id : String) : ℚ :=
  rankTerm k l1 id + rankTerm k l2 id

/-! ## RRF lemmas (claim C3) -/

/-- The total contribution a candidate picks up while one ranked list is
folded in, starting at a given 1-based rank (proof-internal bridge). -/
def contribFrom (k : ℚ) : List (String × ℚ) → Nat → String → ℚ
  | [], _, _ => 0
  | e :: rest, rank, id =>
    (if id = e.1 then 1 / (k + (rank : ℚ)) else 0) +
      contribFrom k rest (rank + 1) id

/-! ## Vector store model (backend/db/vector_store.py over the ChromaDB
collection interface of spec section 6) -/

/-- Chunk metadata as stored by `add_chunks`. -/
structure VSMeta where
  file_path : String
  slide_number : Int
  chunk_index : Int
deriving Repr, DecidableEq

/-- A stored chunk (id, document text, metadata); the embedding itself is
external and only reachable through the abstract distance function. -/
structure VSEntry where
  id : String
  text : String
  metadata : VSMeta
deriving Repr, DecidableEq

/-- The ChromaDB collection state. -/
structure VStore where
  entries : List VSEntry
deriving Repr, DecidableEq

/-- A query result row (`id`, `text`, `metadata`, `distance`). -/
structure VSResult where
  id : String
  text : String
  metadata : VSMeta
  distance : ℚ
deriving Repr, DecidableEq

instance (dist : String → ℚ) :
    DecidableRel (fun a b : VSEntry => dist a.id ≤ dist b.id) :=
  fun a b => inferInstanceAs (Decidable (dist a.id ≤ dist b.id))

/-- Model of `collection.query` (external library, consumed through the
interface of spec section 6): optionally filter by file path, order by
ascending distance to the query embedding, and return the closest `n`.
`dist` abstracts the embedding provider plus cosine distance. -/
def vs_query (st : VStore) (dist : String → ℚ) (n : Nat)
    (wherePaths : Option (List String)) : List VSResult :=
  let pool :=
    match wherePaths with
    | none => st.entries
    | some fps => st.entries.filter (fun e => fps.contains e.metadata.file_path)
  ((List.insertionSort (fun a b : VSEntry => dist a.id ≤ dist b.id)
      pool).take n).map
    (fun e => ⟨e.id, e.text, e.metadata, dist e.id⟩)

/-- `VectorStore.search`. -/
def vs_search (st : VStore) (dist : String → ℚ) (n_results : Nat) :
    List VSResult :=
  vs_query st dist n_results none

/-- `VectorStore.search_with_filter` (`where_filter` stays `None` when no
paths are given; a single path and a `$in` list filter the same way). -/
def vs_search_with_filter (st : VStore) (dist : String → ℚ) (n_results : Nat)
    (file_paths : List String) : List VSResult :=
  if file_paths.isEmpty then vs_query st dist n_results none
  else vs_query st dist n_results (some file_paths)

/-- `VectorStore.delete_by_file`. -/
def vs_delete_by_file (st : VStore) (file_path : String) : VStore :=
  ⟨st.entries.filter (fun e => e.metadata.file_path != file_path)⟩

/-- The chunk id format of `add_chunks` and `_process_single_file`:
`path::slideN::chunkI`. -/
def chunkEntryId (c : Chunk) : String :=
  c.file_path ++ "::slide" ++ toString c.slide_number ++ "::chunk" ++
    toString c.chunk_index

/-- `VectorStore.add_chunks` (embeddings are stored alongside but are only
observable through `dist`, so the model keeps ids, texts and metadata). -/
def vs_add_chunks (st : VStore) (chunks : List Chunk) : VStore :=
  if chunks.isEmpty then st
  else
    ⟨st.entries ++ chunks.map (fun c =>
      ⟨chunkEntryId c, c.text, ⟨c.file_path, c.slide_number, c.chunk_index⟩⟩)⟩

/-- `VectorStore.get_indexed_files` (a Python `set` of the stored paths;
modelled as first-occurrence deduplication). -/
def vs_get_indexed_files (st : VStore) : List String :=
  (st.entries.map (fun e => e.metadata.file_path)).eraseDups

/-- `VectorStore.get_chunks_by_file_and_page`. -/
def vs_get_chunks_by_file_and_page (st : VStore) (file_path : String)
    (page_number : Int) : List VSEntry :=
  st.entries.filter (fun e =>
    e.metadata.file_path == file_path &&
      e.metadata.slide_number == page_number)

/-! ## Retriever (backend/search/retriever.py) -/

def SECTION_KEYWORDS : List (String × String) :=
  [("exclusion", "Exclusion Criteria"), ("inclusion", "Inclusion Criteria"),
   ("contraindication", "Contraindication"), ("adverse", "Adverse Event"),
   ("endpoint", "Endpoint"), ("dosing", "Dosing"), ("schedule", "Schedule")]

def FILE_HINTS : List (String × List String) :=
  [("eli lilly", ["elililly", "lilly"]), ("elililly", ["elililly", "lilly"]),
   ("lilly", ["elililly", "lilly"]), ("ucb", ["ucb"]),
   ("incyte", ["incyte"])]

def PROTOCOL_KEYWORDS : List String := ["protocol", "study protocol"]

/-- Min-max normalize scores to the unit interval (`normalize_scores`). -/
def normalize_scores (results : List (String × ℚ)) : List (String × ℚ) :=
  match results with
  | [] => []
  | r0 :: rest =>
    let scores := (r0 :: rest).map Prod.snd
    let min_s := scores.foldl min r0.2
    let max_s := scores.foldl max r0.2
    if max_s = min_s then (r0 :: rest).map (fun p => (p.1, 1))
    else (r0 :: rest).map (fun p => (p.1, (p.2 - min_s) / (max_s - min_s)))

/-- Python `{r["id"]: r for r in vector_results}` lookup: the last entry with
a given id wins. -/
def lookupLastById (results : List VSResult) (doc_id : String) :
    Option VSResult :=
  results.reverse.find? (fun r => r.id == doc_id)

/-- The vector leg of `hybrid_search` (lines 102-109): a filtered or
unfiltered nearest-neighbour query for twice the requested count. -/
def hybrid_vector_leg (st : VStore) (dist : String → ℚ) (n_results : Nat)
    (file_paths : List String) : List VSResult :=
  if !file_paths.isEmpty then
    vs_search_with_filter st dist (n_results * 2) file_paths
  else vs_search st dist (n_results * 2)

/-- Model of `hybrid_search`. The BM25 leg (`bm25_index.search`, whose scores
come from the external BM25Okapi library) is the parameter `bmSearch`, and
`bmCount` is `bm25_index.count()`; `hybrid_enabled` is
`config.hybrid_search_enabled`. When the hybrid branch runs, fused ids are
mapped back through the vector results only. -/
def hybrid_search (query : String) (st : VStore) (dist : String → ℚ)
    (hybrid_enabled : Bool) (bmCount : Nat)
    (bmSearch : String → Nat → List (String × ℚ))
    (n_results : Nat) (file_paths : List String) : List VSResult :=
  let vector_results := hybrid_vector_leg st dist n_results file_paths
  let vector_ranked := vector_results.map (fun r => (r.id, 1 - r.distance))
  if hybrid_enabled && bmCount != 0 then
    let bm25_results0 := bmSearch query (n_results * 2)
    let bm25_results :=
      if !file_paths.isEmpty then
        bm25_results0.filter (fun p =>
          file_paths.any (fun fp => occursIn fp p.1))
      else bm25_results0
    let bm25_ranked := normalize_scores bm25_results
    let fused := reciprocal_rank_fusion [vector_ranked, bm25_ranked] 60
    let top_ids := (fused.take n_results).map Prod.fst
    top_ids.filterMap (fun doc_id => lookupLastById vector_results doc_id)
  else
    vector_results.take n_results

/-- A search-result dict as built by `_format_search_results`, `rerank_results`
and the keyword/expansion merge stages (absent dict keys are `none`). -/
structure SResult where
  text : String
  file_path : String
  file_name : String
  slide_number : Int
  chunk_index : Option Int
  relevance_score : Option ℚ
  rerank_score : Option ℚ
deriving Repr, DecidableEq

/-- `_format_search_results`. -/
def format_search_results (results : List VSResult) : List SResult :=
  results.map (fun r =>
    ⟨r.text, r.metadata.file_path, pathName r.metadata.file_path,
      r.metadata.slide_number, none, some (1 - r.distance), none⟩)

/-- The reranking provider. `noop` is the "none" provider; every shipped
external provider (Cohere, cross-encoder, LLM) builds each output row from
`documents[index]`, keeping the document's fields as metadata and attaching a
fresh score, so an external provider is abstracted as an index/score
selection. -/
inductive Reranker where
  | noop : Reranker
  | ext (pick : String → List SResult → Nat → List (Nat × ℚ)) : Reranker

/-- Model of `rerank_results`. -/
def rerank_results (query : String) (results : List SResult)
    (reranker : Reranker) (top_n : Nat) : List SResult :=
  if results.isEmpty then []
  else
    match reranker with
    | .noop => results.take top_n
    | .ext pick =>
      (pick query results top_n).filterMap (fun pr =>
        (results.get? pr.1).map (fun d => { d with rerank_score := some pr.2 }))

/-- Strip the separators `_`, space, `-` (in the code's order). -/
def stripSeps (s : String) : String :=
  pyReplace (pyReplace (pyReplace s "_" "") " " "") "-" ""

/-- `_extract_exact_filename`: the first indexed file whose name or stem
occurs in the query, allowing separator-insensitive matching. -/
def extract_exact_filename (query : String) (indexed_files : List String) :
    Option String :=
  let query_lower := pyLower query
  indexed_files.find? (fun fp =>
    let file_name := pyLower (pathName fp)
    let file_name_no_ext := pyLower (pathStem fp)
    occursIn file_name query_lower || occursIn file_name_no_ext query_lower ||
      occursIn (stripSeps file_name) (stripSeps query_lower))

/-- `_extract_file_hints`. -/
def extract_file_hints (query : String) : List String × Bool :=
  let query_lower := pyLower query
  let is_protocol_query :=
    PROTOCOL_KEYWORDS.any (fun kw => occursIn kw query_lower)
  let hints := FILE_HINTS.foldl (fun hints np =>
    if occursIn np.1 query_lower then
      np.2.foldl (fun hs p => if hs.contains p then hs else hs ++ [p]) hints
    else hints) []
  (hints, is_protocol_query)

/-- `_get_hint_matching_files`. -/
def get_hint_matching_files (st : VStore) (file_hints : List String)
    (is_protocol_query : Bool) : List String :=
  (vs_get_indexed_files st).filter (fun f =>
    let path_lower := pyReplace (pyReplace (pyLower f) " " "") "_" ""
    file_hints.any (fun hint => occursIn hint path_lower) &&
      (if is_protocol_query then occursIn "protocol" (pyLower f) else true))

/-- The exact-filename branch of `search_documents` (retriever.py lines
340-351): hybrid search scoped to the single matched file, then formatting
and reranking/truncation — no entity-hint heuristic is consulted. -/
def exact_file_branch (st : VStore) (dist : String → ℚ)
    (hybrid_enabled : Bool) (bmCount : Nat)
    (bmSearch : String → Nat → List (String × ℚ)) (initial_results : Nat)
    (reranker : Reranker) (query : String) (n_results : Nat)
    (use_reranking : Bool) (exact_file : String) : List SResult :=
  let results := hybrid_search query st dist hybrid_enabled bmCount
    bmSearch initial_results [exact_file]
  let formatted := format_search_results results
  if use_reranking then rerank_results query formatted reranker n_results
  else formatted.take n_results

/-- Model of `search_documents` (retriever.py lines 322-380): exact-filename
scoping first, then entity-hint scoping, then unscoped hybrid search; each
branch formats and either reranks or truncates. -/
def search_documents (st : VStore) (dist : String → ℚ)
    (hybrid_enabled : Bool) (bmCount : Nat)
    (bmSearch : String → Nat → List (String × ℚ)) (initial_results : Nat)
    (reranker : Reranker) (query : String) (n_results : Nat)
    (use_reranking : Bool) : List SResult :=
  let indexed_files := vs_get_indexed_files st
  match extract_exact_filename query indexed_files with
  | some exact_file =>
    exact_file_branch st dist hybrid_enabled bmCount bmSearch initial_results
      reranker query n_results use_reranking exact_file
  | none =>
    let hint_pair := extract_file_hints query
    let hint_files :=
      if hint_pair.1.isEmpty then []
      else get_hint_matching_files st hint_pair.1 hint_pair.2
    if !hint_pair.1.isEmpty && !hint_files.isEmpty then
      let results := hybrid_search query st dist hybrid_enabled bmCount
        bmSearch initial_results hint_files
      let formatted := format_search_results results
      if use_reranking then rerank_results query formatted reranker n_results
      else formatted.take n_results
    else
      let results := hybrid_search query st dist hybrid_enabled bmCount
        bmSearch initial_results []
      let formatted := format_search_results results
      if use_reranking then rerank_results query formatted reranker n_results
      else formatted.take n_results

/-- The `f"{file_path}::{page}"` dedup key of `_expand_to_adjacent_pages` and
`_merge_and_dedupe`. -/
def chunkKey (fp : String) (page : Int) : String :=
  fp ++ "::" ++ toString page

/-- A chunk dict as returned by `get_chunks_by_file_and_page` (top-level
`file_path`, `file_name`, `slide_number`, `relevance_score: 1.0`). -/
def pageChunkToResult (e : VSEntry) (file_path : String) (page : Int) :
    SResult :=
  ⟨e.text, file_path, pathName file_path, page, none, some 1, none⟩

/-- Python `range(-expansion_range, expansion_range + 1)`. -/
def adjOffsets (expansion_range : Nat) : List Int :=
  (List.range (2 * expansion_range + 1)).map
    (fun (i : Nat) => (i : Int) - (expansion_range : Int))

/-- The body of the offset loop of `_expand_to_adjacent_pages`: skip offset 0
and pages below 1, skip keys already seen, and append at most the first chunk
of the adjacent page with the fixed discounted score `0.9` (`chunk_id` does
not vary inside the inner chunk loop, so only the first chunk is appended).
The accumulator is `(seen_ids, expanded)`. -/
def expandAtOffset (st : VStore) (file_path : String) (page_num : Int)
    (acc : List String × List SResult) (offset : Int) :
    List String × List SResult :=
  if offset = 0 then acc
  else
    let adjacent_page := page_num + offset
    if adjacent_page < 1 then acc
    else
      let ckey := chunkKey file_path adjacent_page
      if acc.1.contains ckey then acc
      else
        (vs_get_chunks_by_file_and_page st file_path adjacent_page).foldl
          (fun acc2 e =>
            if acc2.1.contains ckey then acc2
            else
              (ckey :: acc2.1,
                acc2.2 ++ [{ pageChunkToResult e file_path adjacent_page with
                  relevance_score := some (9 / 10) }]))
          acc

/-- Model of `_expand_to_adjacent_pages` (retriever.py lines 435-475). -/
def expand_to_adjacent_pages (results : List SResult) (st : VStore)
    (relevant_files : List String) (expansion_range : Nat) : List SResult :=
  let seen := results.map (fun r => chunkKey r.file_path r.slide_number)
  (results.foldl
    (fun acc r =>
      if relevant_files.contains r.file_path then
        (adjOffsets expansion_range).foldl
          (expandAtOffset st r.file_path r.slide_number) acc
      else acc)
    (seen, results)).2

/-- The score used by the final sort: `r.get('relevance_score',
r.get('rerank_score', 0))`. -/
def sortKeyScore (r : SResult) : ℚ :=
  match r.relevance_score with
  | some s => s
  | none => r.rerank_score.getD 0

/-- The final ordering of `get_context_for_query`: ascending in the Python
key tuple `(-score, file_path, slide_number, chunk_index)`. -/
def finalKeyLE (a b : SResult) : Prop :=
  sortKeyScore b < sortKeyScore a ∨
    (sortKeyScore b = sortKeyScore a ∧
      (a.file_path < b.file_path ∨
        (a.file_path = b.file_path ∧
          (a.slide_number < b.slide_number ∨
            (a.slide_number = b.slide_number ∧
              a.chunk_index.getD 0 ≤ b.chunk_index.getD 0)))))

instance : DecidableRel finalKeyLE := fun a b => by
  unfold finalKeyLE
  infer_instance

instance : IsTotal SResult finalKeyLE := by
  constructor
  intro a b
  unfold finalKeyLE
  rcases lt_trichotomy (sortKeyScore a) (sortKeyScore b) with h | h | h
  · exact Or.inr (Or.inl h)
  · rcases lt_trichotomy a.file_path b.file_path with hf | hf | hf
    · exact Or.inl (Or.inr ⟨h.symm, Or.inl hf⟩)
    · rcases lt_trichotomy a.slide_number b.slide_number with hs | hs | hs
      · exact Or.inl (Or.inr ⟨h.symm, Or.inr ⟨hf, Or.inl hs⟩⟩)
      · rcases le_total (a.chunk_index.getD 0) (b.chunk_index.getD 0) with
          hc | hc
        · exact Or.inl (Or.inr ⟨h.symm, Or.inr ⟨hf, Or.inr ⟨hs, hc⟩⟩⟩)
        · exact Or.inr (Or.inr ⟨h, Or.inr ⟨hf.symm, Or.inr ⟨hs.symm, hc⟩⟩⟩)
      · exact Or.inr (Or.inr ⟨h, Or.inr ⟨hf.symm, Or.inl hs⟩⟩)
    · exact Or.inr (Or.inr ⟨h, Or.inl hf⟩)
  · exact Or.inl (Or.inl h)

instance : IsTrans SResult finalKeyLE := by
  constructor
  intro a b c hab hbc
  unfold finalKeyLE at *
  rcases hab with h1 | ⟨h1e, h1r⟩
  · rcases hbc with h2 | ⟨h2e, _⟩
    · exact Or.inl (h2.trans h1)
    · exact Or.inl (h2e ▸ h1)
  · rcases hbc with h2 | ⟨h2e, h2r⟩
    · exact Or.inl (h1e ▸ h2)
    · refine Or.inr ⟨h2e.trans h1e, ?_⟩
      rcases h1r with hf1 | ⟨hf1e, hr1⟩
      · rcases h2r with hf2 | ⟨hf2e, _⟩
        · exact Or.inl (hf1.trans hf2)
        · exact Or.inl (hf2e ▸ hf1)
      · rcases h2r with hf2 | ⟨hf2e, hr2⟩
        · exact Or.inl (hf1e ▸ hf2)
        · refine Or.inr ⟨hf1e.trans hf2e, ?_⟩
          rcases hr1 with hs1 | ⟨hs1e, hc1⟩
          · rcases hr2 with hs2 | ⟨hs2e, _⟩
            · exact Or.inl (hs1.trans hs2)
            · exact Or.inl (hs2e ▸ hs1)
          · rcases hr2 with hs2 | ⟨hs2e, hc2⟩
            · exact Or.inl (hs1e ▸ hs2)
            · exact Or.inr ⟨hs1e.trans hs2e, hc1.trans hc2⟩

/-- The tail of `get_context_for_query` (retriever.py lines 541-551): the
candidate list is truncated to `n_results` first and the truncated list is
then stable-sorted by the final ordering key. -/
def finalize_results (results : List SResult) (n_results : Nat) :
    List SResult :=
  List.insertionSort finalKeyLE (results.take n_results)

/-- Python `sep.join`. -/
def joinSep (sep : String) : List String → String
  | [] => ""
  | [w] => w
  | w :: ws => w ++ sep ++ joinSep sep ws

/-- The attribution blocks and joining of `get_context_for_query`'s return
value. -/
def build_context (results : List SResult) : String :=
  joinSep "\n---\n" (results.enum.map (fun pr =>
    "[Document " ++ toString (pr.1 + 1) ++ "]\n" ++
      "Source: " ++ pr.2.file_name ++ " (Slide " ++
      toString pr.2.slide_number ++ ")\n" ++
      "Content: " ++ pr.2.text ++ "\n"))

/-- The final stage of `get_context_for_query` as a function of the candidate
list it has accumulated: truncate, early-return on empty, sort, format. -/
def get_context_final (results : List SResult) (n_results : Nat) : String :=
  if (results.take n_results).isEmpty then "No relevant documents found."
  else build_context (finalize_results results n_results)

/-- What claim C9 asserts of every chunk added by adjacent-location
expansion (relative to the seed results and the relevant-file scope). -/
def expandP (results : List SResult) (relevant_files : List String)
    (er : Nat) (c : SResult) : Prop :=
  c.relevance_score = some (9 / 10) ∧ 1 ≤ c.slide_number ∧
    (∃ r ∈ results, r.file_path ∈ relevant_files ∧
      c.file_path = r.file_path ∧ c.slide_number ≠ r.slide_number ∧
      (c.slide_number - r.slide_number).natAbs ≤ er) ∧
    chunkKey c.file_path c.slide_number ∉
      results.map (fun r => chunkKey r.file_path r.slide_number)

/-- Invariant of the expansion fold state `(seen_ids, expanded)`. -/
def expandInv (results : List SResult) (relevant_files : List String)
    (er : Nat) (acc : List String × List SResult) : Prop :=
  ∃ added : List SResult,
    acc.2 = results ++ added ∧
    (∀ c ∈ added, expandP results relevant_files er c) ∧
    (added.map (fun c => chunkKey c.file_path c.slide_number)).Nodup ∧
    (∀ k ∈ results.map (fun r => chunkKey r.file_path r.slide_number),
      k ∈ acc.1) ∧
    (∀ c ∈ added, chunkKey c.file_path c.slide_number ∈ acc.1)

/-! ## Metadata store (backend/db/metadata_store.py) -/

/-- A row of the `indexing_jobs` table. -/
structure JobRow where
  id : Nat
  folder_path : String
  max_chunks : Nat
  force_reindex : Bool
  status : String
  files_total : Nat
  files_processed : Nat
deriving Repr, DecidableEq

/-- A row of `indexing_job_files` (primary key `(job_id, file_path)`). -/
structure JobFileRow where
  job_id : Nat
  file_path : String
  status : String
deriving Repr, DecidableEq

/-- The job tables; `next_job_id` models the AUTOINCREMENT counter. -/
structure MetaJobsDB where
  jobs : List JobRow
  job_files : List JobFileRow
  next_job_id : Nat
deriving Repr, DecidableEq

/-- The statuses the store treats as non-terminal
(`status IN ('pending', 'running', 'paused')`). -/
def nonTerminalStatuses : List String := ["pending", "running", "paused"]

/-- `MetadataStore.create_indexing_job`: delete every non-terminal job, purge
per-file rows whose job no longer exists, insert the new job with status
`running`; returns `(lastrowid, new state)`. -/
def create_indexing_job (db : MetaJobsDB) (folder_path : String)
    (max_chunks : Nat) (force_reindex : Bool) (files_total : Nat) :
    Nat × MetaJobsDB :=
  let jobs1 := db.jobs.filter
    (fun j => !(nonTerminalStatuses.contains j.status))
  let files1 := db.job_files.filter
    (fun fr => jobs1.any (fun j => j.id == fr.job_id))
  let newJob : JobRow :=
    ⟨db.next_job_id, folder_path, max_chunks, force_reindex, "running",
      files_total, 0⟩
  (db.next_job_id, ⟨jobs1 ++ [newJob], files1, db.next_job_id + 1⟩)

/-- `MetadataStore.add_job_files` (`INSERT OR IGNORE` on the primary key,
status `'pending'`). -/
def add_job_files (db : MetaJobsDB) (job_id : Nat)
    (file_paths : List String) : MetaJobsDB :=
  ⟨db.jobs,
    file_paths.foldl (fun rows fp =>
      if rows.any (fun r => r.job_id == job_id && r.file_path == fp) then rows
      else rows ++ [⟨job_id, fp, "pending"⟩]) db.job_files,
    db.next_job_id⟩

/-- A sample job-store state: one paused job (id 0) with a pending row and
one completed job (id 1) with an indexed row. -/
def sampleJobsDB : MetaJobsDB :=
  ⟨[⟨0, "/docs", 50, false, "paused", 2, 1⟩,
    ⟨1, "/docs", 50, false, "completed", 2, 2⟩],
   [⟨0, "a.pdf", "pending"⟩, ⟨1, "a.pdf", "indexed"⟩],
   2⟩

/-- The state `create_indexing_job` produces from `sampleJobsDB`. -/
def sampleJobsDB1 : MetaJobsDB :=
  ⟨[⟨1, "/docs", 50, false, "completed", 2, 2⟩,
    ⟨2, "/docs", 50, false, "running", 2, 0⟩],
   [⟨1, "a.pdf", "indexed"⟩],
   3⟩

/-- The state after also registering the scanned files for job 2. -/
def sampleJobsOut : MetaJobsDB :=
  ⟨[⟨1, "/docs", 50, false, "completed", 2, 2⟩,
    ⟨2, "/docs", 50, false, "running", 2, 0⟩],
   [⟨1, "a.pdf", "indexed"⟩, ⟨2, "a.pdf", "pending"⟩,
    ⟨2, "b.pdf", "pending"⟩],
   3⟩

/-! ## Indexing stats merge (backend/api/routes/index.py) -/

/-- A skipped-file record. -/
structure SkipEntry where
  file_path : String
  file_name : String
  reason : String
  chunks_would_be : Option Nat
deriving Repr, DecidableEq

/-- The `skipped_by_reason` category lists. -/
structure SkipLists where
  scanned_image : List SkipEntry
  empty_file : List SkipEntry
  file_too_large : List SkipEntry
  unsupported_type : List SkipEntry
  chunk_limit_exceeded : List SkipEntry
deriving Repr, DecidableEq

/-- The stats record shape `_merge_stats` consumes and produces (wall-clock
times kept as abstract rationals). -/
structure IndexStats where
  total_files : Nat
  indexed_files : Nat
  skipped_unchanged : Nat
  skipped_limits : Nat
  total_chunks : Nat
  total_time : ℚ
  total_embed_time : ℚ
  errors : List String
  skipped_files : List SkipEntry
  skipped_by_reason : SkipLists
deriving Repr, DecidableEq

/-- Model of `_merge_stats` (routes/index.py lines 367-380). -/
def merge_stats (existing new_stats : IndexStats) : IndexStats :=
  { total_files := existing.total_files,
    indexed_files := existing.indexed_files + new_stats.indexed_files,
    skipped_unchanged := existing.skipped_unchanged,
    skipped_limits := new_stats.skipped_limits,
    total_chunks := existing.total_chunks + new_stats.total_chunks,
    total_time := existing.total_time + new_stats.total_time,
    total_embed_time := existing.total_embed_time + new_stats.total_embed_time,
    errors := existing.errors ++ new_stats.errors,
    skipped_files := new_stats.skipped_files,
    skipped_by_reason := new_stats.skipped_by_reason }

/-! ## BM25 index (backend/search/bm25_index.py) -/

/-- The in-memory BM25 corpus; the `BM25Okapi` ranking object and the pickle
snapshot are derived from these three lists. -/
structure BM25State where
  documents : List (List String)
  doc_ids : List String
  doc_texts : List String
deriving Repr, DecidableEq

/-- `BM25Index._tokenize`: lowercase, replace every character that is neither
a word character (ASCII alphanumeric or underscore) nor whitespace by a
space, split on whitespace, keep tokens of length at least 2. -/
def bm25_tokenize (text : String) : List String :=
  let cleaned := ((pyLower text).data).map (fun c =>
    if c.isAlphanum || c == '_' || c.isWhitespace then c else ' ')
  (pySplit (String.mk cleaned)).filter (fun t => 2 ≤ t.length)

/-- `BM25Index.add_documents`: ids already present are skipped (their stored
text is not refreshed); new ids are appended. -/
def bm25_add_documents (st : BM25State) (doc_ids : List String)
    (texts : List String) : BM25State :=
  (doc_ids.zip texts).foldl (fun st p =>
    if st.doc_ids.contains p.1 then st
    else
      ⟨st.documents ++ [bm25_tokenize p.2], st.doc_ids ++ [p.1],
        st.doc_texts ++ [p.2]⟩) st

/-! ## Index manager (backend/indexer/index_manager.py) -/

def SUPPORTED_EXTENSIONS : List String := [".pptx", ".pdf", ".docx", ".xlsx"]

def MAX_CHUNKS_PER_FILE : Nat := 50

def MAX_FILE_SIZE_MB : ℚ := 50

/-- `_categorize_skip_reason`: map a skip reason string to a category key. -/
def categorize_skip_reason (skip_reason : String) : String :=
  if skip_reason == "scanned image" then "scanned_image"
  else if skip_reason == "empty file" || skip_reason == "no chunks generated"
      || skip_reason == "no extractable content" then "empty_file"
  else if pyStartsWith skip_reason "file too large" then "file_too_large"
  else if pyStartsWith skip_reason "unsupported type" then "unsupported_type"
  else if pyStartsWith skip_reason "too many chunks" then
    "chunk_limit_exceeded"
  else "empty_file"

/-- A row of the `indexed_files` hash table. -/
structure FileHashRow where
  file_path : String
  file_hash : String
  chunk_count : Nat
deriving Repr, DecidableEq

/-- `MetadataStore.get_file_hash`. -/
def ms_get_file_hash (rows : List FileHashRow) (fp : String) : Option String :=
  (rows.find? (fun r => r.file_path == fp)).map (·.file_hash)

/-- `MetadataStore.set_file_hash` (upsert on the path primary key). -/
def ms_set_file_hash (rows : List FileHashRow) (fp h : String) (cnt : Nat) :
    List FileHashRow :=
  if rows.any (fun r => r.file_path == fp) then
    rows.map (fun r => if r.file_path == fp then ⟨fp, h, cnt⟩ else r)
  else rows ++ [⟨fp, h, cnt⟩]

/-- The three stores `_process_single_file` mutates under the mutex; the
sequential model reflects that those mutations are serialized. -/
structure Stores where
  vs : VStore
  ms : List FileHashRow
  bm : BM25State
deriving Repr, DecidableEq

/-- The per-file inputs of `_process_single_file`. Each external call's
outcome (`compute_file_hash`, `Path.stat`, the extractor,
`generate_embeddings`) is given as data: `Except.error m` models the call
raising an exception whose `str` is `m`, which the function's `try/except`
catches. The extractor's value is the content list paired with the optional
`skip_reason` of the PDF extractor's dict result. -/
structure FileJob where
  file_path : String
  hash_result : Except String String
  size_mb : Except String ℚ
  extract_result : Except String (List ContentItem × Option String)
  embed_result : Except String Unit
deriving Repr

/-- The result dict of `_process_single_file` (timing fields omitted:
wall-clock). -/
structure FileResult where
  file_path : String
  file_name : String
  action : Option String
  chunks : Nat
  skipped : Bool
  skip_reason : Option String
  chunks_would_be : Option Nat
  error : Option String
deriving Repr, DecidableEq

/-- Model of `_process_single_file` (index_manager.py lines 167-287). Early
returns become nested matches; a raised exception jumps to the `except`
branch, keeping the store mutations made before the raise (only the
vector-store delete precedes any later call). The size-format of the
"file too large" reason keeps only its categorized text. -/
def process_single_file (s : Stores) (job : FileJob) (force_reindex : Bool)
    (max_chunks_per_file : Nat) : FileResult × Stores :=
  let base : FileResult :=
    ⟨job.file_path, pathName job.file_path, none, 0, false, none, none, none⟩
  match job.hash_result with
  | .error e => ({ base with error := some e }, s)
  | .ok current_hash =>
    let stored_hash := ms_get_file_hash s.ms job.file_path
    if !force_reindex && stored_hash == some current_hash then
      ({ base with action := some "skipped_unchanged" }, s)
    else
      let action := if stored_hash.isSome then "reindex" else "index"
      let s1 := if stored_hash.isSome then
          { s with vs := vs_delete_by_file s.vs job.file_path }
        else s
      let base1 := { base with action := some action }
      let file_ext := pyLower (pathSuffix job.file_path)
      match job.size_mb with
      | .error e => ({ base1 with error := some e }, s1)
      | .ok file_size_mb =>
        if !(SUPPORTED_EXTENSIONS.contains file_ext) then
          ({ base1 with skipped := true,
                        skip_reason :=
                          some ("unsupported type: " ++ file_ext) }, s1)
        else if file_size_mb > MAX_FILE_SIZE_MB then
          ({ base1 with skipped := true,
                        skip_reason := some "file too large" }, s1)
        else
          match job.extract_result with
          | .error e => ({ base1 with error := some e }, s1)
          | .ok extraction =>
            let content := extraction.1
            let skip0 := if file_ext == ".pdf" then extraction.2 else none
            if content.isEmpty then
              ({ base1 with skipped := true,
                            skip_reason :=
                              some (skip0.getD "no extractable content") },
                s1)
            else
              let params := get_chunk_params job.file_path
              let chunks := chunk_document content job.file_path params.1
                params.2
              if chunks.isEmpty then
                ({ base1 with skipped := true,
                              skip_reason := some "no chunks generated" },
                  s1)
              else if max_chunks_per_file < chunks.length then
                ({ base1 with skipped := true,
                              skip_reason := some ("too many chunks: " ++
                                toString chunks.length ++ " > " ++
                                toString max_chunks_per_file),
                              chunks_would_be := some chunks.length }, s1)
              else
                match job.embed_result with
                | .error e => ({ base1 with error := some e }, s1)
                | .ok _ =>
                  ({ base1 with chunks := chunks.length },
                    { vs := vs_add_chunks s1.vs chunks,
                      ms := ms_set_file_hash s1.ms job.file_path current_hash
                        chunks.length,
                      bm := bm25_add_documents s1.bm
                        (chunks.map chunkEntryId) (chunks.map (·.text)) })

/-- The run-stats fields the aggregation loop updates (times and per-file
timing lists omitted: wall-clock). -/
structure RunStats where
  total_files : Nat
  indexed_files : Nat
  skipped_unchanged : Nat
  skipped_limits : Nat
  total_chunks : Nat
  errors : List String
  skipped_files : List SkipEntry
  skipped_by_reason : SkipLists
deriving Repr, DecidableEq

/-- Append a skipped entry to its category list. -/
def addSkipToLists (ls : SkipLists) (category : String) (e : SkipEntry) :
    SkipLists :=
  if category == "scanned_image" then
    { ls with scanned_image := ls.scanned_image ++ [e] }
  else if category == "empty_file" then
    { ls with empty_file := ls.empty_file ++ [e] }
  else if category == "file_too_large" then
    { ls with file_too_large := ls.file_too_large ++ [e] }
  else if category == "unsupported_type" then
    { ls with unsupported_type := ls.unsupported_type ++ [e] }
  else if category == "chunk_limit_exceeded" then
    { ls with chunk_limit_exceeded := ls.chunk_limit_exceeded ++ [e] }
  else ls

/-- The per-result aggregation of `index_folder`'s completion loop
(index_manager.py lines 399-460): compute the job-file status and update the
stats. Python truthiness is kept: an error whose message is the empty string
does not count as an error. Returns `(updated stats, recorded status)`. -/
def record_result (stats : RunStats) (result : FileResult) :
    RunStats × String :=
  let errTruthy := result.error.getD "" != ""
  let file_status0 := if errTruthy then "error" else "completed"
  let file_status := if result.skipped then "skipped" else file_status0
  if result.action == some "skipped_unchanged" then
    ({ stats with skipped_unchanged := stats.skipped_unchanged + 1 },
      file_status)
  else if errTruthy then
    ({ stats with errors := stats.errors ++
        ["Error indexing " ++ result.file_path ++ ": " ++
          result.error.getD ""] }, file_status)
  else if result.skipped then
    let skip_reason := result.skip_reason.getD ""
    let category := categorize_skip_reason skip_reason
    let entry : SkipEntry :=
      ⟨result.file_path, result.file_name, skip_reason,
        result.chunks_would_be⟩
    let stats1 := { stats with
      skipped_limits := stats.skipped_limits + 1,
      skipped_by_reason := addSkipToLists stats.skipped_by_reason category
        entry }
    let stats2 := if category == "chunk_limit_exceeded" then
        { stats1 with skipped_files := stats1.skipped_files ++ [entry] }
      else stats1
    (stats2, file_status)
  else
    ({ stats with indexed_files := stats.indexed_files + 1,
                  total_chunks := stats.total_chunks + result.chunks },
      file_status)

/-- The batch loop of `index_folder` with no cancellation request: process
each file in turn (the thread pool's completion order is abstracted as
submission order; store mutations are serialized by the mutex), record its
job-file status and fold its result into the stats. Returns the final
stores, stats, the `(file_path, status)` updates sent to the job store, and
the per-file results. -/
def run_batch (s : Stores) (jobs : List FileJob) (force_reindex : Bool)
    (max_chunks_per_file : Nat) (stats0 : RunStats) :
    Stores × RunStats × List (String × String) × List FileResult :=
  jobs.foldl (fun acc job =>
    let pr := process_single_file acc.1 job force_reindex max_chunks_per_file
    let rs := record_result acc.2.1 pr.1
    (pr.2, rs.1, acc.2.2.1 ++ [(job.file_path, rs.2)],
      acc.2.2.2 ++ [pr.1]))
    (s, stats0, [], [])

/-- A store state holding two previously indexed chunks of `f.pdf` (hash
`h1`) in all three stores. -/
def c2Store : Stores :=
  ⟨⟨[⟨"f.pdf::slide1::chunk0", "old zero", ⟨"f.pdf", 1, 0⟩⟩,
     ⟨"f.pdf::slide1::chunk1", "old one", ⟨"f.pdf", 1, 1⟩⟩]⟩,
   [⟨"f.pdf", "h1", 2⟩],
   ⟨[bm25_tokenize "old zero", bm25_tokenize "old one"],
    ["f.pdf::slide1::chunk0", "f.pdf::slide1::chunk1"],
    ["old zero", "old one"]⟩⟩

/-- A reprocessing job for `f.pdf` whose content changed (hash now `h2`) and
now yields a single slide of new text. -/
def c2Job : FileJob :=
  ⟨"f.pdf", .ok "h2", .ok 1,
   .ok ([⟨some 1, none, "new content words"⟩], none), .ok ()⟩

/-- A job whose hash computation raises an exception with an empty message
(e.g. `raise ValueError()`), so `str(e)` is `""`. -/
def c6Job : FileJob := ⟨"g.pdf", .error "", .ok 1, .ok ([], none), .ok ()⟩

/-- Fresh stats for a one-file run. -/
def c6Stats : RunStats := ⟨1, 0, 0, 0, 0, [], [], ⟨[], [], [], [], []⟩⟩

/-- Empty stores. -/
def c6Store : Stores := ⟨⟨[]⟩, [], ⟨[], [], []⟩⟩

/-- The loop body of `run_batch`, named for the induction lemmas. -/
def batchStep (force_reindex : Bool) (max_chunks_per_file : Nat)
    (acc : Stores × RunStats × List (String × String) × List FileResult)
    (job : FileJob) :
    Stores × RunStats × List (String × String) × List FileResult :=
  let pr := process_single_file acc.1 job force_reindex max_chunks_per_file
  let rs := record_result acc.2.1 pr.1
  (pr.2, rs.1, acc.2.2.1 ++ [(job.file_path, rs.2)], acc.2.2.2 ++ [pr.1])

/-! ## Theorems -/

/-! ## Chunker lemmas (claim C1) -/

/-- Every position of the word list from `start` on is covered by some window
emitted by the sliding-window loop, provided the fuel is at least the number
of remaining words and `overlap < size`. -/
theorem chunkLoop_coverage (ctx path : String) (loc : Int) (words : List String)
    (size overlap : Nat) (hO : overlap < size) :
    ∀ fuel start idx i, start < words.length → words.length - start ≤ fuel →
      start ≤ i → i < words.length →
      ∃ p ∈ chunkLoop ctx path loc words size overlap fuel start idx,
        p.start ≤ i ∧ i < p.stop := by
  intro fuel
  induction fuel with
  | zero => intro start idx i h1 h2 _ _; omega
  | succ fuel ih =>
    intro start idx i h1 h2 h3 h4
    simp only [chunkLoop, if_pos h1]
    rcases le_or_lt words.length (start + size) with hbig | hsmall
    · rw [min_eq_right hbig, if_pos (le_refl words.length)]
      exact ⟨_, List.mem_singleton_self _, h3, h4⟩
    · rw [min_eq_left hsmall.le, if_neg (by omega)]
      by_cases hi : i < start + size
      · exact ⟨_, List.mem_cons_self _ _, h3, hi⟩
      · have hlt : start + size - overlap < words.length := by omega
        have hfuel : words.length - (start + size - overlap) ≤ fuel := by omega
        obtain ⟨p, hp, hps, hpe⟩ := ih (start + size - overlap) (idx + 1) i hlt
          hfuel (by omega) h4
        exact ⟨p, List.mem_cons_of_mem _ hp, hps, hpe⟩

/-- The chunk indices emitted by the loop are consecutive starting at `idx`. -/
theorem chunkLoop_indices (ctx path : String) (loc : Int) (words : List String)
    (size overlap : Nat) :
    ∀ fuel start idx,
      (chunkLoop ctx path loc words size overlap fuel start idx).map
          (fun p => p.chunk.chunk_index) =
        List.range' idx
          (chunkLoop ctx path loc words size overlap fuel start idx).length := by
  intro fuel
  induction fuel with
  | zero => intro start idx; simp [chunkLoop]
  | succ fuel ih =>
    intro start idx
    simp only [chunkLoop]
    by_cases h1 : start < words.length
    · simp only [if_pos h1]
      rcases le_or_lt words.length (start + size) with hbig | hsmall
      · rw [min_eq_right hbig, if_pos (le_refl words.length)]
        simp [List.range']
      · rw [min_eq_left hsmall.le, if_neg (by omega)]
        simp only [List.map_cons, List.length_cons, List.range'_succ]
        exact congrArg _ (ih _ _)
    · simp [if_neg h1]

/-- Shape facts about every window emitted by the loop: the window is the
slice `words[start:stop]`, it has `stop - start` tokens, at most `size` of
them, and the chunk's text is the context header followed by the joined
window. -/
theorem chunkLoop_window_spec (ctx path : String) (loc : Int)
    (words : List String) (size overlap : Nat) :
    ∀ fuel start idx p,
      p ∈ chunkLoop ctx path loc words size overlap fuel start idx →
      p.window = (words.drop p.start).take (p.stop - p.start) ∧
        p.stop - p.start ≤ size ∧ p.stop ≤ words.length ∧
        p.chunk.text = ctx ++ joinSpace p.window := by
  intro fuel
  induction fuel with
  | zero => intro start idx p hp; simp [chunkLoop] at hp
  | succ fuel ih =>
    intro start idx p hp
    simp only [chunkLoop] at hp
    by_cases h1 : start < words.length
    · rw [if_pos h1] at hp
      rcases le_or_lt words.length (start + size) with hbig | hsmall
      · rw [min_eq_right hbig, if_pos (le_refl words.length)] at hp
        simp only [List.mem_singleton] at hp
        subst hp
        refine ⟨rfl, ?_, ?_, rfl⟩ <;> dsimp only <;> omega
      · rw [min_eq_left hsmall.le, if_neg (by omega)] at hp
        rcases List.mem_cons.mp hp with h | h
        · subst h
          refine ⟨rfl, ?_, ?_, rfl⟩ <;> dsimp only <;> omega
        · exact ih _ _ _ h
    · rw [if_neg h1] at hp; simp at hp

/-- The loop emits at least one window when it starts inside the word list
and has fuel. -/
theorem chunkLoop_ne_nil (ctx path : String) (loc : Int) (words : List String)
    (size overlap fuel start idx : Nat) (h1 : start < words.length) :
    chunkLoop ctx path loc words size overlap (fuel + 1) start idx ≠ [] := by
  simp only [chunkLoop, if_pos h1]
  by_cases he : words.length ≤ min (start + size) words.length <;>
    simp [he]

/-- A token whose position lies inside a window's bounds is an element of
that window. -/
theorem mem_window_of_bounds (words : List String) (p : ChunkWin)
    (hw : p.window = (words.drop p.start).take (p.stop - p.start))
    (_hstop : p.stop ≤ words.length) (i : Nat) (hi : i < words.length)
    (h1 : p.start ≤ i) (h2 : i < p.stop) :
    words.get ⟨i, hi⟩ ∈ p.window := by
  rw [hw]
  have hlen : i - p.start <
      ((words.drop p.start).take (p.stop - p.start)).length := by
    simp [List.length_take, List.length_drop]
    omega
  have hidx : i - p.start < (words.drop p.start).length := by
    simp [List.length_drop]; omega
  have hTake : ((words.drop p.start).take (p.stop - p.start)).get
      ⟨i - p.start, hlen⟩ = (words.drop p.start).get ⟨i - p.start, hidx⟩ := by
    simp [List.get_eq_getElem, List.getElem_take]
  have hDrop : (words.drop p.start).get ⟨i - p.start, hidx⟩ =
      words.get ⟨i, hi⟩ := by
    simp only [List.get_eq_getElem]
    rw [List.getElem_drop]
    congr 1
    omega
  have hmem := List.get_mem ((words.drop p.start).take (p.stop - p.start))
    (i - p.start) hlen
  rw [hTake, hDrop] at hmem
  exact hmem

/-- C1. For every input text, file path, location, chunk size `S > 0` and
overlap `O` with `O < S`: `chunk_text` returns no chunks if and only if the
text is empty or whitespace-only; otherwise it returns a non-empty list of
chunks whose `chunk_index` values are strictly increasing starting at 0
(they equal `0, 1, …, n-1` positionally), every whitespace-separated token of
the normalized source text appears in the window of at least one chunk, and
no chunk's window contains more than `S` tokens. -/
theorem chunk_text_contract (text file_path : String) (loc : Int)
    (S O : Nat) (_hS : 0 < S) (hO : O < S) :
    (chunk_text text file_path loc S O = [] ↔ pyBlank text = true) ∧
    chunk_text text file_path loc S O =
      (chunk_text_wins text file_path loc S O).map (·.chunk) ∧
    (chunk_text text file_path loc S O).map (·.chunk_index) =
      List.range (chunk_text text file_path loc S O).length ∧
    (pyBlank text = false →
      ∀ i (hi : i < (pySplit (normalize_text text)).length),
        ∃ p ∈ chunk_text_wins text file_path loc S O,
          (pySplit (normalize_text text)).get ⟨i, hi⟩ ∈ p.window) ∧
    (∀ p ∈ chunk_text_wins text file_path loc S O, p.window.length ≤ S) := by
  by_cases hb : pyBlank text
  · constructor
    · simp [chunk_text, chunk_text_wins, hb]
    refine ⟨by simp [chunk_text], ?_, ?_, ?_⟩
    · simp [chunk_text, chunk_text_wins, hb]
    · intro hc; rw [hb] at hc; cases hc
    · intro p hp
      simp [chunk_text_wins, hb] at hp
  · have hb' : pyBlank text = false := by simpa using hb
    by_cases hsmall : (pySplit (normalize_text text)).length ≤ S
    · have hwins : chunk_text_wins text file_path loc S O =
          [⟨⟨"File: " ++ pathName file_path ++ " (in " ++
              pathParentName file_path ++ " folder)\n\n" ++ normalize_text text,
            file_path, loc, 0⟩, pySplit (normalize_text text), 0,
            (pySplit (normalize_text text)).length⟩] := by
        simp [chunk_text_wins, hb, hsmall]
      refine ⟨?_, by simp [chunk_text], ?_, ?_, ?_⟩
      · simp [chunk_text, hwins, hb']
      · simp [chunk_text, hwins]
        all_goals decide
      · intro _ i hi
        rw [hwins]
        refine ⟨_, List.mem_singleton_self _, ?_⟩
        dsimp only
        exact List.get_mem _ _ _
      · intro p hp
        rw [hwins] at hp
        simp only [List.mem_singleton] at hp
        subst hp
        simpa using hsmall
    · push_neg at hsmall
      have h0 : 0 < (pySplit (normalize_text text)).length := by omega
      have hwins : chunk_text_wins text file_path loc S O =
          chunkLoop ("File: " ++ pathName file_path ++ " (in " ++
              pathParentName file_path ++ " folder)\n\n") file_path loc
            (pySplit (normalize_text text)) S O
            (pySplit (normalize_text text)).length 0 0 := by
        simp [chunk_text_wins, hb]
        omega
      refine ⟨?_, by simp [chunk_text], ?_, ?_, ?_⟩
      · rw [chunk_text, hwins, hb']
        simp only [Bool.false_eq_true, iff_false, List.map_eq_nil_iff]
        obtain ⟨n, hn⟩ := Nat.exists_eq_succ_of_ne_zero (by omega :
          (pySplit (normalize_text text)).length ≠ 0)
        rw [hn]
        exact chunkLoop_ne_nil _ file_path loc (pySplit (normalize_text text))
          S O n 0 0 (by omega)
      · rw [chunk_text, hwins]
        have := chunkLoop_indices ("File: " ++ pathName file_path ++ " (in " ++
            pathParentName file_path ++ " folder)\n\n") file_path loc
          (pySplit (normalize_text text)) S O
          (pySplit (normalize_text text)).length 0 0
        rw [List.map_map, List.length_map, List.range_eq_range']
        exact this
      · intro _ i hi
        obtain ⟨p, hp, hps, hpe⟩ := chunkLoop_coverage ("File: " ++
            pathName file_path ++ " (in " ++ pathParentName file_path ++
            " folder)\n\n") file_path loc (pySplit (normalize_text text)) S O
          hO (pySplit (normalize_text text)).length 0 0 i h0 (by omega)
          (by omega) hi
        obtain ⟨hw, _, hstop, _⟩ := chunkLoop_window_spec _ _ _ _ _ _ _ _ _ _ hp
        rw [hwins]
        exact ⟨p, hp, mem_window_of_bounds _ _ hw hstop i hi hps hpe⟩
      · intro p hp
        rw [hwins] at hp
        obtain ⟨hw, hsz, _, _⟩ := chunkLoop_window_spec _ _ _ _ _ _ _ _ _ _ hp
        rw [hw]
        simp only [List.length_take, List.length_drop]
        omega

/-- Witness for C1 at a concrete input: text "one two three" with size 2,
overlap 1. -/
theorem chunk_text_contract_witness :
    (0 : Nat) < 2 ∧ (1 : Nat) < 2 ∧
      (chunk_text "one two three" "/d/f.txt" 1 2 1).map (·.chunk_index) =
        List.range (chunk_text "one two three" "/d/f.txt" 1 2 1).length :=
  ⟨by decide, by decide,
    (chunk_text_contract "one two three" "/d/f.txt" 1 2 1 (by decide)
      (by decide)).2.2.1⟩

theorem getScore_nil (id : String) : getScore [] id = 0 := rfl

theorem getScore_cons (e : String × ℚ) (m : List (String × ℚ)) (id : String) :
    getScore (e :: m) id = if e.1 = id then e.2 else getScore m id := by
  by_cases h : e.1 = id <;> simp [getScore, List.find?_cons, h]

theorem getScore_eq_zero_of_not_mem (m : List (String × ℚ)) (id : String)
    (h : id ∉ m.map Prod.fst) : getScore m id = 0 := by
  induction m with
  | nil => rfl
  | cons e rest ih =>
    simp only [List.map_cons, List.mem_cons] at h
    push_neg at h
    rw [getScore_cons, if_neg (fun he => h.1 he.symm), ih h.2]

theorem getScore_update (m : List (String × ℚ)) (id : String) (v : ℚ)
    (id' : String) :
    getScore (m.map (fun p => if p.1 == id then (p.1, p.2 + v) else p)) id' =
      getScore m id' +
        (if id' = id ∧ id ∈ m.map Prod.fst then v else 0) := by
  induction m with
  | nil => simp [getScore]
  | cons e rest ih =>
    by_cases h1 : e.1 = id
    · have hbeq : (e.1 == id) = true := by simpa using h1
      by_cases h2 : id' = id
      · have hkey : e.1 = id' := by rw [h1, h2]
        simp only [List.map_cons, hbeq, if_true, getScore_cons, hkey,
          List.mem_cons]
        simp [h2, h1.symm]
      · have hkey : ¬ e.1 = id' := fun he => h2 (he.symm.trans h1)
        simp only [List.map_cons, hbeq, if_true, getScore_cons]
        rw [if_neg hkey, if_neg hkey, ih]
        simp [h2]
    · have hbeq : (e.1 == id) = false := by simpa using h1
      by_cases h2 : e.1 = id'
      · have hcond : ¬ id' = id := fun he => h1 (h2.trans he)
        simp only [List.map_cons, hbeq, Bool.false_eq_true, if_false,
          getScore_cons]
        rw [if_pos h2, if_pos h2]
        simp [hcond]
      · simp only [List.map_cons, hbeq, Bool.false_eq_true, if_false,
          getScore_cons]
        rw [if_neg h2, if_neg h2, ih]
        have hiff : (id' = id ∧ id ∈ e.1 :: List.map Prod.fst rest) =
            (id' = id ∧ id ∈ List.map Prod.fst rest) := by
          apply propext
          simp only [List.mem_cons]
          constructor
          · rintro ⟨ha, he | hmem⟩
            · exact absurd he.symm h1
            · exact ⟨ha, hmem⟩
          · rintro ⟨ha, hmem⟩
            exact ⟨ha, Or.inr hmem⟩
        simp only [hiff]

theorem any_key_iff (m : List (String × ℚ)) (id : String) :
    m.any (fun p => p.1 == id) = true ↔ id ∈ m.map Prod.fst := by
  simp [List.any_eq_true, List.mem_map]

theorem getScore_append (m1 m2 : List (String × ℚ)) (id : String) :
    getScore (m1 ++ m2) id =
      if id ∈ m1.map Prod.fst then getScore m1 id else getScore m2 id := by
  induction m1 with
  | nil => simp
  | cons e rest ih =>
    by_cases h : e.1 = id
    · rw [List.cons_append, getScore_cons, if_pos h, getScore_cons]
      rw [if_pos (by simp [List.mem_cons, h.symm]), if_pos h]
    · rw [List.cons_append, getScore_cons, if_neg h, ih, getScore_cons,
        if_neg h]
      have : (id ∈ (e :: rest).map Prod.fst) = (id ∈ rest.map Prod.fst) := by
        apply propext
        simp only [List.map_cons, List.mem_cons]
        constructor
        · rintro (he | hm)
          · exact absurd he.symm h
          · exact hm
        · exact Or.inr
      simp only [this]

theorem getScore_addScore (m : List (String × ℚ)) (id : String) (v : ℚ)
    (id' : String) :
    getScore (addScore m id v) id' =
      getScore m id' + (if id' = id then v else 0) := by
  by_cases hany : m.any (fun p => p.1 == id) = true
  · have hmem : id ∈ m.map Prod.fst := (any_key_iff m id).mp hany
    rw [addScore, if_pos hany, getScore_update]
    by_cases h2 : id' = id <;> simp [h2, hmem]
  · have hmem : id ∉ m.map Prod.fst := fun h => hany ((any_key_iff m id).mpr h)
    rw [addScore, if_neg hany, getScore_append]
    by_cases h2 : id' = id
    · subst h2
      rw [if_neg hmem, getScore_eq_zero_of_not_mem m _ hmem]
      simp [getScore_cons]
    · by_cases hm' : id' ∈ m.map Prod.fst
      · rw [if_pos hm']
        simp [h2]
      · rw [if_neg hm', getScore_eq_zero_of_not_mem m _ hm']
        rw [getScore_cons, if_neg (fun he : id = id' => h2 he.symm)]
        simp [getScore_nil, h2]

theorem getScore_scoreListGo (k : ℚ) :
    ∀ (l m : List (String × ℚ)) (rank : Nat) (id : String),
      getScore (scoreListGo k m rank l) id =
        getScore m id + contribFrom k l rank id := by
  intro l
  induction l with
  | nil => intro m rank id; simp [scoreListGo, contribFrom]
  | cons e rest ih =>
    intro m rank id
    rw [scoreListGo, ih, getScore_addScore, contribFrom]
    by_cases h : id = e.1 <;> simp [h] <;> ring

theorem keys_update (m : List (String × ℚ)) (id : String) (v : ℚ) :
    (m.map (fun p => if p.1 == id then (p.1, p.2 + v) else p)).map Prod.fst =
      m.map Prod.fst := by
  rw [List.map_map]
  apply List.map_congr_left
  intro p _
  by_cases h : p.1 = id <;> simp [beq_iff_eq, h]

theorem mem_keys_addScore (m : List (String × ℚ)) (id : String) (v : ℚ)
    (id' : String) :
    id' ∈ (addScore m id v).map Prod.fst ↔
      id' ∈ m.map Prod.fst ∨ id' = id := by
  by_cases hany : m.any (fun p => p.1 == id) = true
  · rw [addScore, if_pos hany, keys_update]
    have hmem := (any_key_iff m id).mp hany
    constructor
    · exact Or.inl
    · rintro (h | rfl)
      · exact h
      · exact hmem
  · rw [addScore, if_neg hany]
    simp [List.map_append]

theorem nodup_keys_addScore (m : List (String × ℚ)) (id : String) (v : ℚ)
    (h : (m.map Prod.fst).Nodup) :
    ((addScore m id v).map Prod.fst).Nodup := by
  by_cases hany : m.any (fun p => p.1 == id) = true
  · rwa [addScore, if_pos hany, keys_update]
  · have hmem : id ∉ m.map Prod.fst := fun hm => hany ((any_key_iff m id).mpr hm)
    rw [addScore, if_neg hany]
    simp only [List.map_append, List.map_cons, List.map_nil]
    rw [List.nodup_append]
    refine ⟨h, List.nodup_singleton _, ?_⟩
    intro a ha hb
    simp only [List.mem_singleton] at hb
    exact hmem (hb ▸ ha)

theorem mem_keys_scoreListGo (k : ℚ) :
    ∀ (l m : List (String × ℚ)) (rank : Nat) (id' : String),
      id' ∈ (scoreListGo k m rank l).map Prod.fst ↔
        id' ∈ m.map Prod.fst ∨ id' ∈ l.map Prod.fst := by
  intro l
  induction l with
  | nil => intro m rank id'; simp [scoreListGo]
  | cons e rest ih =>
    intro m rank id'
    rw [scoreListGo, ih, mem_keys_addScore]
    simp only [List.map_cons, List.mem_cons]
    tauto

theorem nodup_keys_scoreListGo (k : ℚ) :
    ∀ (l m : List (String × ℚ)) (rank : Nat),
      (m.map Prod.fst).Nodup →
      ((scoreListGo k m rank l).map Prod.fst).Nodup := by
  intro l
  induction l with
  | nil => intro m rank h; simpa [scoreListGo] using h
  | cons e rest ih =>
    intro m rank h
    rw [scoreListGo]
    exact ih _ _ (nodup_keys_addScore _ _ _ h)

theorem getScore_of_mem (m : List (String × ℚ))
    (hnd : (m.map Prod.fst).Nodup) (p : String × ℚ) (hp : p ∈ m) :
    getScore m p.1 = p.2 := by
  induction m with
  | nil => cases hp
  | cons e rest ih =>
    simp only [List.map_cons, List.nodup_cons] at hnd
    rcases List.mem_cons.mp hp with rfl | hmem
    · simp [getScore_cons]
    · have hne : ¬ e.1 = p.1 := by
        intro he
        exact hnd.1 (he ▸ List.mem_map.mpr ⟨p, hmem, rfl⟩)
      rw [getScore_cons, if_neg hne]
      exact ih hnd.2 hmem

theorem contribFrom_eq_zero_of_not_mem (k : ℚ) :
    ∀ (l : List (String × ℚ)) (rank : Nat) (id : String),
      id ∉ l.map Prod.fst → contribFrom k l rank id = 0 := by
  intro l
  induction l with
  | nil => intro rank id _; rfl
  | cons e rest ih =>
    intro rank id h
    simp only [List.map_cons, List.mem_cons] at h
    push_neg at h
    rw [contribFrom, if_neg h.1, ih _ _ h.2]
    simp

theorem contribFrom_eq_rankTerm (k : ℚ) :
    ∀ (l : List (String × ℚ)), (l.map Prod.fst).Nodup →
      ∀ (rank : Nat) (id : String),
        contribFrom k l rank id =
          match rankOf id (l.map Prod.fst) with
          | some r => 1 / (k + (rank : ℚ) + (r : ℚ) - 1)
          | none => 0 := by
  intro l
  induction l with
  | nil => intro _ rank id; rfl
  | cons e rest ih =>
    intro hnd rank id
    simp only [List.map_cons, List.nodup_cons] at hnd
    by_cases h : id = e.1
    · have hnotin : id ∉ rest.map Prod.fst := h ▸ hnd.1
      rw [contribFrom, if_pos h, contribFrom_eq_zero_of_not_mem k rest _ _
        hnotin, add_zero]
      simp only [List.map_cons, rankOf, if_pos h.symm]
      push_cast
      ring_nf
    · rw [contribFrom, if_neg h, zero_add, ih hnd.2 (rank + 1) id]
      simp only [List.map_cons, rankOf,
        if_neg (fun he : e.1 = id => h he.symm)]
      cases hro : rankOf id (rest.map Prod.fst) with
      | none => simp [hro]
      | some r =>
        simp only [hro]
        dsimp only [Option.map]
        push_cast
        ring_nf

theorem contribFrom_one (k : ℚ) (l : List (String × ℚ))
    (hnd : (l.map Prod.fst).Nodup) (id : String) :
    contribFrom k l 1 id = rankTerm k l id := by
  rw [contribFrom_eq_rankTerm k l hnd 1 id, rankTerm]
  cases rankOf id (l.map Prod.fst) with
  | none => rfl
  | some r => push_cast; ring_nf

theorem rankOf_eq_none (id : String) (l : List String) (h : id ∉ l) :
    rankOf id l = none := by
  induction l with
  | nil => rfl
  | cons x xs ih =>
    simp only [List.mem_cons] at h
    push_neg at h
    rw [rankOf, if_neg (fun he => h.1 he.symm), ih h.2]
    rfl

theorem mem_of_rankOf (id : String) :
    ∀ (l : List String) (r : Nat), rankOf id l = some r → id ∈ l := by
  intro l
  induction l with
  | nil => intro r h; cases h
  | cons x xs ih =>
    intro r h
    rw [rankOf] at h
    by_cases hx : x = id
    · exact List.mem_cons.mpr (Or.inl hx.symm)
    · rw [if_neg hx] at h
      cases hro : rankOf id xs with
      | none => rw [hro] at h; cases h
      | some r' => exact List.mem_cons.mpr (Or.inr (ih r' hro))

/-- In a list sorted descending by score with pairwise-distinct keys, a
strictly higher-scored entry's key occurs strictly earlier. -/
theorem indexOf_lt_of_score_gt :
    ∀ (out : List (String × ℚ)), (out.map Prod.fst).Nodup →
      out.Pairwise scoreGE → ∀ pa pb : String × ℚ, pa ∈ out → pb ∈ out →
      pb.2 < pa.2 →
      List.indexOf pa.1 (out.map Prod.fst) <
        List.indexOf pb.1 (out.map Prod.fst) := by
  intro out
  induction out with
  | nil => intro _ _ pa _ hpa; cases hpa
  | cons e rest ih =>
    intro hnd hsort pa pb hpa hpb hlt
    simp only [List.map_cons, List.nodup_cons] at hnd
    rw [List.pairwise_cons] at hsort
    rcases List.mem_cons.mp hpa with rfl | hpa'
    · have hpb' : pb ∈ rest := by
        rcases List.mem_cons.mp hpb with rfl | h
        · exact absurd hlt (lt_irrefl _)
        · exact h
      have hkey : pb.1 ≠ pa.1 := by
        intro he
        exact hnd.1 (he ▸ List.mem_map.mpr ⟨pb, hpb', rfl⟩)
      rw [List.map_cons, List.indexOf_cons_self,
        List.indexOf_cons_ne _ (by simpa using hkey.symm)]
      omega
    · have hpb' : pb ∈ rest := by
        rcases List.mem_cons.mp hpb with rfl | h
        · exact absurd hlt (not_lt.mpr (hsort.1 pa hpa'))
        · exact h
      have hka : pa.1 ≠ e.1 := by
        intro he
        exact hnd.1 (he ▸ List.mem_map.mpr ⟨pa, hpa', rfl⟩)
      have hkb : pb.1 ≠ e.1 := by
        intro he
        exact hnd.1 (he ▸ List.mem_map.mpr ⟨pb, hpb', rfl⟩)
      rw [List.map_cons, List.indexOf_cons_ne _ (by simpa using Ne.symm hka),
        List.indexOf_cons_ne _ (by simpa using Ne.symm hkb)]
      have := ih hnd.2 hsort.2 pa pb hpa' hpb' hlt
      omega

/-- C3. For every pair of ranked lists with distinct ids,
`reciprocal_rank_fusion` with `k = 60` assigns each candidate appearing in
either list the score `Σ 1/(60 + rank)` over the lists containing it, returns
exactly the candidates of either list sorted descending by that score, and a
document ranked at position `r` in both lists outranks a document at position
`r` in only one list. (Fused order is reproducible because the model is a
pure function of its inputs.) -/
theorem rrf_contract (l1 l2 : List (String × ℚ))
    (h1 : (l1.map Prod.fst).Nodup) (h2 : (l2.map Prod.fst).Nodup) :
    (∀ p ∈ reciprocal_rank_fusion [l1, l2] 60,
        p.2 = spec_rrf_score 60 l1 l2 p.1) ∧
    (∀ id, id ∈ (reciprocal_rank_fusion [l1, l2] 60).map Prod.fst ↔
        id ∈ l1.map Prod.fst ∨ id ∈ l2.map Prod.fst) ∧
    (reciprocal_rank_fusion [l1, l2] 60).Pairwise (fun a b => b.2 ≤ a.2) ∧
    (∀ dA dB r,
        rankOf dA (l1.map Prod.fst) = some r →
        rankOf dA (l2.map Prod.fst) = some r →
        ((rankOf dB (l1.map Prod.fst) = some r ∧ dB ∉ l2.map Prod.fst) ∨
         (rankOf dB (l2.map Prod.fst) = some r ∧ dB ∉ l1.map Prod.fst)) →
        List.indexOf dA
            ((reciprocal_rank_fusion [l1, l2] 60).map Prod.fst) <
          List.indexOf dB
            ((reciprocal_rank_fusion [l1, l2] 60).map Prod.fst)) := by
  have hm0 : ([l1, l2].foldl (fun m l => scoreListGo (60 : ℚ) m 1 l) []) =
      scoreListGo 60 (scoreListGo 60 [] 1 l1) 1 l2 := rfl
  have hperm : (reciprocal_rank_fusion [l1, l2] 60).Perm
      (scoreListGo 60 (scoreListGo 60 [] 1 l1) 1 l2) := by
    rw [reciprocal_rank_fusion, hm0]
    exact List.perm_insertionSort _ _
  have hnd0 : ((scoreListGo (60 : ℚ) (scoreListGo 60 [] 1 l1) 1 l2).map
      Prod.fst).Nodup :=
    nodup_keys_scoreListGo _ _ _ _ (nodup_keys_scoreListGo _ _ _ _ (by simp))
  have hndout : ((reciprocal_rank_fusion [l1, l2] 60).map Prod.fst).Nodup :=
    ((hperm.map Prod.fst).nodup_iff).mpr hnd0
  have hscore : ∀ id, getScore
      (scoreListGo (60 : ℚ) (scoreListGo 60 [] 1 l1) 1 l2) id =
      spec_rrf_score 60 l1 l2 id := by
    intro id
    rw [getScore_scoreListGo, getScore_scoreListGo, getScore_nil, zero_add,
      contribFrom_one 60 l1 h1, contribFrom_one 60 l2 h2, spec_rrf_score]
  have hval : ∀ p ∈ reciprocal_rank_fusion [l1, l2] 60,
      p.2 = spec_rrf_score 60 l1 l2 p.1 := by
    intro p hp
    have hp0 := hperm.mem_iff.mp hp
    rw [← hscore p.1, getScore_of_mem _ hnd0 p hp0]
  have hmem : ∀ id, id ∈ (reciprocal_rank_fusion [l1, l2] 60).map Prod.fst ↔
      id ∈ l1.map Prod.fst ∨ id ∈ l2.map Prod.fst := by
    intro id
    rw [(hperm.map Prod.fst).mem_iff, mem_keys_scoreListGo,
      mem_keys_scoreListGo]
    simp
  have hsorted : (reciprocal_rank_fusion [l1, l2] 60).Pairwise scoreGE := by
    rw [reciprocal_rank_fusion]
    exact List.sorted_insertionSort scoreGE _
  refine ⟨hval, hmem, hsorted, ?_⟩
  intro dA dB r hA1 hA2 hcase
  have hApos : (0 : ℚ) < 1 / (60 + (r : ℚ)) := by positivity
  have hAscore : spec_rrf_score 60 l1 l2 dA =
      1 / (60 + (r : ℚ)) + 1 / (60 + (r : ℚ)) := by
    rw [spec_rrf_score, rankTerm, rankTerm, hA1, hA2]
  have hBscore : spec_rrf_score 60 l1 l2 dB = 1 / (60 + (r : ℚ)) := by
    rcases hcase with ⟨hB1, hB2⟩ | ⟨hB2, hB1⟩
    · rw [spec_rrf_score, rankTerm, rankTerm, hB1,
        rankOf_eq_none dB _ hB2, add_zero]
    · rw [spec_rrf_score, rankTerm, rankTerm, hB2,
        rankOf_eq_none dB _ hB1, zero_add]
  have hAmem : dA ∈ (reciprocal_rank_fusion [l1, l2] 60).map Prod.fst :=
    (hmem dA).mpr (Or.inl (mem_of_rankOf dA _ r hA1))
  have hBmem : dB ∈ (reciprocal_rank_fusion [l1, l2] 60).map Prod.fst := by
    rcases hcase with ⟨hB1, _⟩ | ⟨hB2, _⟩
    · exact (hmem dB).mpr (Or.inl (mem_of_rankOf dB _ r hB1))
    · exact (hmem dB).mpr (Or.inr (mem_of_rankOf dB _ r hB2))
  obtain ⟨pa, hpa, hpa1⟩ := List.mem_map.mp hAmem
  obtain ⟨pb, hpb, hpb1⟩ := List.mem_map.mp hBmem
  have hpav := hval pa hpa
  have hpbv := hval pb hpb
  have hlt : pb.2 < pa.2 := by
    rw [hpav, hpbv, hpa1, hpb1, hAscore, hBscore]
    linarith
  have hidx := indexOf_lt_of_score_gt _ hndout hsorted pa pb hpa hpb hlt
  rwa [hpa1, hpb1] at hidx

/-- Witness for C3 at concrete ranked lists. -/
theorem rrf_contract_witness :
    (([("a", (1 : ℚ))].map Prod.fst).Nodup ∧
      ([("b", (1 : ℚ))].map Prod.fst).Nodup) ∧
    (reciprocal_rank_fusion [[("a", (1 : ℚ))], [("b", (1 : ℚ))]] 60).Pairwise
      (fun a b => b.2 ≤ a.2) :=
  ⟨⟨by decide, by decide⟩,
    (rrf_contract [("a", 1)] [("b", 1)] (by decide) (by decide)).2.2.1⟩

/-- C7 counterexample. With candidates `low` (score 0) then `high` (score 1)
and `n_results = 1`, the final stage of `get_context_for_query` returns the
lower-scored candidate: the code truncates before sorting, so the output is
not the sorted-then-truncated top-1 the claim states. -/
theorem final_order_counterexample :
    finalize_results
        [⟨"low", "a.pdf", "a.pdf", 1, none, some 0, none⟩,
         ⟨"high", "b.pdf", "b.pdf", 1, none, some 1, none⟩] 1 ≠
      (List.insertionSort finalKeyLE
        [⟨"low", "a.pdf", "a.pdf", 1, none, some 0, none⟩,
         ⟨"high", "b.pdf", "b.pdf", 1, none, some 1, none⟩]).take 1 := by
  decide

/-- C7 (amended). The final stage of `get_context_for_query` truncates the
candidate list to `n_results` first and then stable-sorts the truncated list
by descending relevance/rerank score with ties broken ascending by
`(file_path, location, chunk_index)`: the output is a permutation of the
first `n` candidates (not of the `n` highest-scoring ones), it is sorted by
the final ordering, its length is `min n (number of candidates)`, and — being
a pure function — it is deterministic. -/
theorem final_order_truncate_then_sort (results : List SResult) (n : Nat) :
    (finalize_results results n).Perm (results.take n) ∧
    (finalize_results results n).Pairwise finalKeyLE ∧
    (finalize_results results n).length = min n results.length := by
  refine ⟨List.perm_insertionSort _ _, List.sorted_insertionSort _ _, ?_⟩
  rw [finalize_results,
    (List.perm_insertionSort finalKeyLE (results.take n)).length_eq,
    List.length_take]

theorem expandChunksFold_inv (results : List SResult)
    (relevant_files : List String) (er : Nat) (fp : String) (adj : Int)
    (mk : VSEntry → SResult)
    (hmk : ∀ e, (mk e).file_path = fp ∧ (mk e).slide_number = adj ∧
      (mk e).relevance_score = some (9 / 10))
    (hadj : 1 ≤ adj)
    (hw : ∃ r ∈ results, r.file_path ∈ relevant_files ∧ fp = r.file_path ∧
      adj ≠ r.slide_number ∧ (adj - r.slide_number).natAbs ≤ er) :
    ∀ (es : List VSEntry) (acc : List String × List SResult),
      expandInv results relevant_files er acc →
      expandInv results relevant_files er
        (es.foldl (fun acc2 e =>
          if acc2.1.contains (chunkKey fp adj) then acc2
          else (chunkKey fp adj :: acc2.1, acc2.2 ++ [mk e])) acc) := by
  intro es
  induction es with
  | nil => intro acc hinv; simpa using hinv
  | cons e rest ih =>
    intro acc hinv
    rw [List.foldl_cons]
    by_cases hc : acc.1.contains (chunkKey fp adj)
    · rw [if_pos hc]
      exact ih acc hinv
    rw [if_neg hc]
    obtain ⟨added, hacc2, hall, hnd, hseeds, hkeys⟩ := hinv
    have hkey : chunkKey fp adj ∉ acc.1 :=
      fun hmem => hc (List.elem_eq_true_of_mem hmem)
    have hckey : chunkKey (mk e).file_path (mk e).slide_number =
        chunkKey fp adj := by
      rw [(hmk e).1, (hmk e).2.1]
    refine ih _ ⟨added ++ [mk e], ?_, ?_, ?_, ?_, ?_⟩
    · rw [hacc2, List.append_assoc]
    · intro x hx
      rcases List.mem_append.mp hx with hx | hx
      · exact hall x hx
      · rw [List.mem_singleton.mp hx]
        obtain ⟨r, hr, hrf, hfp, hne, hdist⟩ := hw
        refine ⟨(hmk e).2.2, by rw [(hmk e).2.1]; exact hadj,
          ⟨r, hr, hrf, by rw [(hmk e).1]; exact hfp,
            by rw [(hmk e).2.1]; exact hne,
            by rw [(hmk e).2.1]; exact hdist⟩, ?_⟩
        rw [hckey]
        intro hmem
        exact hkey (hseeds _ hmem)
    · rw [List.map_append, List.map_cons, List.map_nil, hckey]
      rw [List.nodup_append]
      refine ⟨hnd, List.nodup_singleton _, ?_⟩
      intro a ha hb
      rw [List.mem_singleton.mp hb] at ha
      obtain ⟨x, hx, hxe⟩ := List.mem_map.mp ha
      exact hkey (hxe ▸ hkeys x hx)
    · intro k hk
      exact List.mem_cons_of_mem _ (hseeds k hk)
    · intro x hx
      rcases List.mem_append.mp hx with hx | hx
      · exact List.mem_cons_of_mem _ (hkeys x hx)
      · rw [List.mem_singleton.mp hx, hckey]
        exact List.mem_cons_self _ _

theorem expandAtOffset_inv (results : List SResult)
    (relevant_files : List String) (er : Nat) (st : VStore) (r : SResult)
    (hr : r ∈ results) (hrf : r.file_path ∈ relevant_files) (offset : Int)
    (hoff : offset.natAbs ≤ er) (acc : List String × List SResult)
    (hinv : expandInv results relevant_files er acc) :
    expandInv results relevant_files er
      (expandAtOffset st r.file_path r.slide_number acc offset) := by
  simp only [expandAtOffset]
  by_cases h0 : offset = 0
  · rwa [if_pos h0]
  rw [if_neg h0]
  by_cases h1 : r.slide_number + offset < 1
  · rwa [if_pos h1]
  rw [if_neg h1]
  by_cases h2 : acc.1.contains (chunkKey r.file_path (r.slide_number + offset))
  · rwa [if_pos h2]
  rw [if_neg h2]
  exact expandChunksFold_inv results relevant_files er r.file_path
    (r.slide_number + offset)
    (fun e => { pageChunkToResult e r.file_path (r.slide_number + offset) with
      relevance_score := some (9 / 10) })
    (fun e => ⟨rfl, rfl, rfl⟩) (by omega)
    ⟨r, hr, hrf, rfl, by omega, by omega⟩ _ acc hinv

theorem expandOffsetsFold_inv (results : List SResult)
    (relevant_files : List String) (er : Nat) (st : VStore) (r : SResult)
    (hr : r ∈ results) (hrf : r.file_path ∈ relevant_files) :
    ∀ (os : List Int), (∀ o ∈ os, o.natAbs ≤ er) →
      ∀ acc, expandInv results relevant_files er acc →
        expandInv results relevant_files er
          (os.foldl (expandAtOffset st r.file_path r.slide_number) acc) := by
  intro os
  induction os with
  | nil => intro _ acc hinv; simpa using hinv
  | cons o rest ih =>
    intro hos acc hinv
    rw [List.foldl_cons]
    exact ih (fun x hx => hos x (List.mem_cons_of_mem _ hx)) _
      (expandAtOffset_inv results relevant_files er st r hr hrf o
        (hos o (List.mem_cons_self _ _)) acc hinv)

theorem mem_adjOffsets (er : Nat) (o : Int) (ho : o ∈ adjOffsets er) :
    o.natAbs ≤ er := by
  rw [adjOffsets] at ho
  obtain ⟨i, hi, rfl⟩ := List.mem_map.mp ho
  rw [List.mem_range] at hi
  omega

theorem expandResultsFold_inv (results : List SResult)
    (relevant_files : List String) (er : Nat) (st : VStore) :
    ∀ (rs : List SResult), (∀ x ∈ rs, x ∈ results) →
      ∀ acc, expandInv results relevant_files er acc →
        expandInv results relevant_files er
          (rs.foldl
            (fun acc r =>
              if relevant_files.contains r.file_path then
                (adjOffsets er).foldl
                  (expandAtOffset st r.file_path r.slide_number) acc
              else acc)
            acc) := by
  intro rs
  induction rs with
  | nil => intro _ acc hinv; simpa using hinv
  | cons r rest ih =>
    intro hrs acc hinv
    rw [List.foldl_cons]
    by_cases hrel : relevant_files.contains r.file_path
    · rw [if_pos hrel]
      exact ih (fun x hx => hrs x (List.mem_cons_of_mem _ hx)) _
        (expandOffsetsFold_inv results relevant_files er st r
          (hrs r (List.mem_cons_self _ _))
          (List.mem_of_elem_eq_true hrel) _
          (fun o ho => mem_adjOffsets er o ho) acc hinv)
    · rw [if_neg hrel]
      exact ih (fun x hx => hrs x (List.mem_cons_of_mem _ hx)) acc hinv

/-- C9. Adjacent-location expansion leaves the seed results as a prefix of
its output and only appends chunks that carry the fixed discounted score
`0.9`, sit at a location at least 1 and within plus/minus 2 of some seed
result's location in a relevant file, and whose `(file, location)` key
duplicates neither a seed nor a previously added chunk. -/
theorem expansion_bound (results : List SResult) (st : VStore)
    (relevant_files : List String) :
    ∃ added : List SResult,
      expand_to_adjacent_pages results st relevant_files 2 =
        results ++ added ∧
      (∀ c ∈ added, expandP results relevant_files 2 c) ∧
      (added.map (fun c => chunkKey c.file_path c.slide_number)).Nodup := by
  have hinv0 : expandInv results relevant_files 2
      (results.map (fun r => chunkKey r.file_path r.slide_number), results) :=
    ⟨[], by simp, by simp, by simp, fun k hk => hk, by simp⟩
  have hfin := expandResultsFold_inv results relevant_files 2 st results
    (fun x hx => hx) _ hinv0
  obtain ⟨added, h1, h2, h3, _, _⟩ := hfin
  exact ⟨added, by rw [expand_to_adjacent_pages]; exact h1, h2, h3⟩

/-- Witness for C9: a concrete expansion run, via `expansion_bound`. -/
theorem expansion_bound_witness :
    ∃ added : List SResult,
      expand_to_adjacent_pages
          [⟨"t", "f.pdf", "f.pdf", 3, none, some 1, none⟩]
          ⟨[⟨"f.pdf::slide2::chunk0", "p2", ⟨"f.pdf", 2, 0⟩⟩]⟩ ["f.pdf"] 2 =
        [⟨"t", "f.pdf", "f.pdf", 3, none, some 1, none⟩] ++ added ∧
      (∀ c ∈ added, expandP [⟨"t", "f.pdf", "f.pdf", 3, none, some 1, none⟩]
        ["f.pdf"] 2 c) ∧
      (added.map (fun c => chunkKey c.file_path c.slide_number)).Nodup :=
  expansion_bound [⟨"t", "f.pdf", "f.pdf", 3, none, some 1, none⟩]
    ⟨[⟨"f.pdf::slide2::chunk0", "p2", ⟨"f.pdf", 2, 0⟩⟩]⟩ ["f.pdf"]

/-- Every element of a filtered nearest-neighbour query comes from the store
and matches the where-filter. -/
theorem vs_query_filter_mem (st : VStore) (dist : String → ℚ) (n : Nat)
    (fps : List String) (r : VSResult)
    (hr : r ∈ vs_query st dist n (some fps)) :
    r.metadata.file_path ∈ fps := by
  rw [vs_query] at hr
  obtain ⟨e, he, rfl⟩ := List.mem_map.mp hr
  have he2 : e ∈ List.insertionSort
      (fun a b : VSEntry => dist a.id ≤ dist b.id)
      (st.entries.filter (fun e => fps.contains e.metadata.file_path)) :=
    List.take_subset _ _ he
  have he3 := (List.perm_insertionSort
    (fun a b : VSEntry => dist a.id ≤ dist b.id) _).mem_iff.mp he2
  have := (List.mem_filter.mp he3).2
  exact List.mem_of_elem_eq_true this

/-- Fused hybrid-search output only ever surfaces rows of the vector leg. -/
theorem hybrid_search_subset (query : String) (st : VStore)
    (dist : String → ℚ) (hybrid_enabled : Bool) (bmCount : Nat)
    (bmSearch : String → Nat → List (String × ℚ)) (n_results : Nat)
    (file_paths : List String) (r : VSResult)
    (hr : r ∈ hybrid_search query st dist hybrid_enabled bmCount bmSearch
      n_results file_paths) :
    r ∈ hybrid_vector_leg st dist n_results file_paths := by
  rw [hybrid_search] at hr
  by_cases hcond : (hybrid_enabled && bmCount != 0) = true
  · rw [if_pos hcond] at hr
    obtain ⟨doc_id, _, hfind⟩ := List.mem_filterMap.mp hr
    rw [lookupLastById] at hfind
    have := List.mem_of_find?_eq_some hfind
    exact List.mem_reverse.mp this
  · rw [if_neg hcond] at hr
    exact List.take_subset _ _ hr

/-- Formatted results keep the metadata's file path. -/
theorem format_search_results_paths (results : List VSResult) (f : String)
    (hall : ∀ v ∈ results, v.metadata.file_path = f) :
    ∀ r ∈ format_search_results results, r.file_path = f := by
  intro r hr
  obtain ⟨v, hv, rfl⟩ := List.mem_map.mp hr
  exact hall v hv

/-- Reranking (no-op truncation or an external provider that builds each
output from an input document) cannot introduce a new file path. -/
theorem rerank_results_paths (query : String) (results : List SResult)
    (reranker : Reranker) (top_n : Nat) (f : String)
    (hall : ∀ d ∈ results, d.file_path = f) :
    ∀ r ∈ rerank_results query results reranker top_n, r.file_path = f := by
  intro r hr
  cases reranker with
  | noop =>
    rw [rerank_results] at hr
    by_cases hempty : results.isEmpty
    · rw [if_pos hempty] at hr; cases hr
    · rw [if_neg hempty] at hr
      exact hall r (List.take_subset _ _ hr)
  | ext pick =>
    rw [rerank_results] at hr
    by_cases hempty : results.isEmpty
    · rw [if_pos hempty] at hr; cases hr
    · rw [if_neg hempty] at hr
      obtain ⟨pr, _, hsome⟩ := List.mem_filterMap.mp hr
      cases hget : results.get? pr.1 with
      | none => rw [hget] at hsome; cases hsome
      | some d =>
        rw [hget] at hsome
        have hrd : r = { d with rerank_score := some pr.2 } := by
          simpa using hsome.symm
        have hd : d ∈ results := List.get?_mem hget
        rw [hrd]
        exact hall d hd

/-- C10. Every result `hybrid_search` returns is an element of the
vector-search leg's result list (fused ids are resolved through the vector
results only, so a chunk ranked only by the BM25 leg is never included); the
second conjunct exhibits a concrete run in which the lexical leg supplied an
extra candidate and the fused output still contains fewer results than
requested. -/
theorem hybrid_search_vector_only :
    (∀ (query : String) (st : VStore) (dist : String → ℚ)
        (hybrid_enabled : Bool) (bmCount : Nat)
        (bmSearch : String → Nat → List (String × ℚ)) (n_results : Nat)
        (file_paths : List String) (r : VSResult),
      r ∈ hybrid_search query st dist hybrid_enabled bmCount bmSearch
          n_results file_paths →
      r ∈ hybrid_vector_leg st dist n_results file_paths) ∧
    (hybrid_search "q" ⟨[⟨"v1", "t", ⟨"f.pdf", 1, 0⟩⟩]⟩ (fun _ => 0) true 1
        (fun _ _ => [("bmonly", 1)]) 2 []).length = 1 := by
  constructor
  · intro query st dist he bc bs n fps r hr
    exact hybrid_search_subset query st dist he bc bs n fps r hr
  · norm_num +decide [hybrid_search, hybrid_vector_leg, vs_search, vs_query,
      vs_search_with_filter, normalize_scores, reciprocal_rank_fusion,
      scoreListGo, addScore, scoreGE, lookupLastById, List.insertionSort,
      List.orderedInsert]

/-- C4. When the query text contains an indexed file's name or stem
(separator-insensitively), `search_documents` takes the exact-filename
branch — the entity-hint scoping of `_extract_file_hints` and
`_get_hint_matching_files` is never consulted — and every returned result's
`file_path` equals the matched file, for any distance assignment (so even
when another file's chunks are semantically closer). -/
theorem exact_filename_scoping (st : VStore) (dist : String → ℚ)
    (hybrid_enabled : Bool) (bmCount : Nat)
    (bmSearch : String → Nat → List (String × ℚ)) (initial_results : Nat)
    (reranker : Reranker) (query : String) (n_results : Nat)
    (use_reranking : Bool) (f : String)
    (hf : extract_exact_filename query (vs_get_indexed_files st) = some f) :
    search_documents st dist hybrid_enabled bmCount bmSearch initial_results
        reranker query n_results use_reranking =
      exact_file_branch st dist hybrid_enabled bmCount bmSearch
        initial_results reranker query n_results use_reranking f ∧
    ∀ r ∈ search_documents st dist hybrid_enabled bmCount bmSearch
        initial_results reranker query n_results use_reranking,
      r.file_path = f := by
  have hbranch : search_documents st dist hybrid_enabled bmCount bmSearch
      initial_results reranker query n_results use_reranking =
      exact_file_branch st dist hybrid_enabled bmCount bmSearch
        initial_results reranker query n_results use_reranking f := by
    simp only [search_documents, hf]
  refine ⟨hbranch, ?_⟩
  intro r hr
  rw [hbranch] at hr
  have hvec : ∀ v ∈ hybrid_search query st dist hybrid_enabled bmCount
      bmSearch initial_results [f], v.metadata.file_path = f := by
    intro v hv
    have hleg := hybrid_search_subset query st dist hybrid_enabled bmCount
      bmSearch initial_results [f] v hv
    rw [hybrid_vector_leg] at hleg
    simp only [List.isEmpty_cons, Bool.not_false, if_pos] at hleg
    rw [vs_search_with_filter] at hleg
    simp only [List.isEmpty_cons, if_neg] at hleg
    · have := vs_query_filter_mem st dist (initial_results * 2) [f] v hleg
      simpa using this
  have hfmt : ∀ d ∈ format_search_results (hybrid_search query st dist
      hybrid_enabled bmCount bmSearch initial_results [f]),
      d.file_path = f :=
    format_search_results_paths _ f hvec
  rw [exact_file_branch] at hr
  by_cases hu : use_reranking
  · rw [if_pos hu] at hr
    exact rerank_results_paths query _ reranker n_results f hfmt r hr
  · rw [if_neg hu] at hr
    exact hfmt r (List.take_subset _ _ hr)

/-- Witness for C4 at a concrete store and query. -/
theorem exact_filename_scoping_witness :
    extract_exact_filename "summarize doc.pdf please"
        (vs_get_indexed_files
          ⟨[⟨"doc.pdf::slide1::chunk0", "text", ⟨"doc.pdf", 1, 0⟩⟩]⟩) =
      some "doc.pdf" ∧
    ∀ r ∈ search_documents
        ⟨[⟨"doc.pdf::slide1::chunk0", "text", ⟨"doc.pdf", 1, 0⟩⟩]⟩
        (fun _ => 0) true 0 (fun _ _ => []) 100 Reranker.noop
        "summarize doc.pdf please" 10 true,
      r.file_path = "doc.pdf" :=
  ⟨by decide,
    (exact_filename_scoping
      ⟨[⟨"doc.pdf::slide1::chunk0", "text", ⟨"doc.pdf", 1, 0⟩⟩]⟩
      (fun _ => 0) true 0 (fun _ _ => []) 100 Reranker.noop
      "summarize doc.pdf please" 10 true "doc.pdf" (by decide)).2⟩

/-- C8 counterexample. Merging two records that each carry one limit-skip
and one skipped-file entry: the merged `skipped_limits` is not the sum, the
merged `skipped_unchanged` is not the sum, and the merged `skipped_files`
list is not the concatenation (the prior record's entry is dropped). -/
theorem merge_stats_counterexample :
    (merge_stats
        ⟨1, 0, 1, 1, 0, 0, 0, [], [⟨"a", "a", "r", none⟩],
          ⟨[], [], [], [], [⟨"a", "a", "r", none⟩]⟩⟩
        ⟨1, 0, 1, 1, 0, 0, 0, [], [], ⟨[], [], [], [], []⟩⟩).skipped_limits
        ≠ 1 + 1 ∧
    (merge_stats
        ⟨1, 0, 1, 1, 0, 0, 0, [], [⟨"a", "a", "r", none⟩],
          ⟨[], [], [], [], [⟨"a", "a", "r", none⟩]⟩⟩
        ⟨1, 0, 1, 1, 0, 0, 0, [], [],
          ⟨[], [], [], [], []⟩⟩).skipped_unchanged ≠ 1 + 1 ∧
    (merge_stats
        ⟨1, 0, 1, 1, 0, 0, 0, [], [⟨"a", "a", "r", none⟩],
          ⟨[], [], [], [], [⟨"a", "a", "r", none⟩]⟩⟩
        ⟨1, 0, 1, 1, 0, 0, 0, [], [], ⟨[], [], [], [], []⟩⟩).skipped_files
        ≠ [⟨"a", "a", "r", none⟩] ++ [] := by
  refine ⟨by decide, by decide, by decide⟩

/-- C8 (amended). `_merge_stats` sums `indexed_files`, `total_chunks` and the
two time counters and concatenates `errors`; but it copies `total_files` and
`skipped_unchanged` from the prior record, and takes `skipped_limits`,
`skipped_files` and `skipped_by_reason` from the incremental run's record
alone (replacement, not concatenation). -/
theorem merge_stats_fields (existing new_stats : IndexStats) :
    (merge_stats existing new_stats).indexed_files =
      existing.indexed_files + new_stats.indexed_files ∧
    (merge_stats existing new_stats).total_chunks =
      existing.total_chunks + new_stats.total_chunks ∧
    (merge_stats existing new_stats).total_time =
      existing.total_time + new_stats.total_time ∧
    (merge_stats existing new_stats).total_embed_time =
      existing.total_embed_time + new_stats.total_embed_time ∧
    (merge_stats existing new_stats).errors =
      existing.errors ++ new_stats.errors ∧
    (merge_stats existing new_stats).total_files = existing.total_files ∧
    (merge_stats existing new_stats).skipped_unchanged =
      existing.skipped_unchanged ∧
    (merge_stats existing new_stats).skipped_limits =
      new_stats.skipped_limits ∧
    (merge_stats existing new_stats).skipped_files =
      new_stats.skipped_files ∧
    (merge_stats existing new_stats).skipped_by_reason =
      new_stats.skipped_by_reason :=
  ⟨rfl, rfl, rfl, rfl, rfl, rfl, rfl, rfl, rfl, rfl⟩

/-- Rows only accumulate during the `add_job_files` insert loop. -/
theorem jobfiles_fold_sup (job_id : Nat) :
    ∀ (fps : List String) (rows : List JobFileRow) (fr : JobFileRow),
      fr ∈ rows →
      fr ∈ fps.foldl (fun rows fp =>
        if rows.any (fun r => r.job_id == job_id && r.file_path == fp) then
          rows
        else rows ++ [⟨job_id, fp, "pending"⟩]) rows := by
  intro fps
  induction fps with
  | nil => intro rows fr h; simpa using h
  | cons fp rest ih =>
    intro rows fr h
    rw [List.foldl_cons]
    by_cases hc : rows.any (fun r => r.job_id == job_id && r.file_path == fp)
    · rw [if_pos hc]; exact ih rows fr h
    · rw [if_neg hc]
      exact ih _ fr (List.mem_append.mpr (Or.inl h))

/-- Everything the insert loop produces is an old row or a fresh pending row
for one of the scanned files. -/
theorem jobfiles_fold_mem (job_id : Nat) :
    ∀ (fps : List String) (rows : List JobFileRow) (fr : JobFileRow),
      fr ∈ fps.foldl (fun rows fp =>
        if rows.any (fun r => r.job_id == job_id && r.file_path == fp) then
          rows
        else rows ++ [⟨job_id, fp, "pending"⟩]) rows →
      fr ∈ rows ∨
        (fr.job_id = job_id ∧ fr.file_path ∈ fps ∧ fr.status = "pending") := by
  intro fps
  induction fps with
  | nil => intro rows fr h; exact Or.inl (by simpa using h)
  | cons fp rest ih =>
    intro rows fr h
    rw [List.foldl_cons] at h
    by_cases hc : rows.any (fun r => r.job_id == job_id && r.file_path == fp)
    · rw [if_pos hc] at h
      rcases ih rows fr h with h | ⟨h1, h2, h3⟩
      · exact Or.inl h
      · exact Or.inr ⟨h1, List.mem_cons_of_mem _ h2, h3⟩
    · rw [if_neg hc] at h
      rcases ih _ fr h with h | ⟨h1, h2, h3⟩
      · rcases List.mem_append.mp h with h | h
        · exact Or.inl h
        · rw [List.mem_singleton.mp h]
          exact Or.inr ⟨rfl, List.mem_cons_self _ _, rfl⟩
      · exact Or.inr ⟨h1, List.mem_cons_of_mem _ h2, h3⟩

/-- Every scanned file ends with a pending row, provided rows for the new job
id can only carry status pending. -/
theorem jobfiles_fold_covers (job_id : Nat) :
    ∀ (fps : List String) (rows : List JobFileRow),
      (∀ r ∈ rows, r.job_id = job_id → r.status = "pending") →
      ∀ fp ∈ fps,
        ∃ fr ∈ fps.foldl (fun rows fp =>
          if rows.any (fun r => r.job_id == job_id && r.file_path == fp) then
            rows
          else rows ++ [⟨job_id, fp, "pending"⟩]) rows,
          fr.job_id = job_id ∧ fr.file_path = fp ∧ fr.status = "pending" := by
  intro fps
  induction fps with
  | nil => intro rows _ fp h; cases h
  | cons fp0 rest ih =>
    intro rows hpend fp hfp
    rw [List.foldl_cons]
    by_cases hc : rows.any (fun r => r.job_id == job_id && r.file_path == fp0)
    · rw [if_pos hc]
      rcases List.mem_cons.mp hfp with rfl | hfp'
      · obtain ⟨r, hr, hrp⟩ := List.any_eq_true.mp hc
        have h1 : r.job_id = job_id := by
          have := (Bool.and_eq_true _ _).mp hrp
          simpa using this.1
        have h2 : r.file_path = fp := by
          have := (Bool.and_eq_true _ _).mp hrp
          simpa using this.2
        exact ⟨r, jobfiles_fold_sup job_id rest rows r hr, h1, h2,
          hpend r hr h1⟩
      · exact ih rows hpend fp hfp'
    · rw [if_neg hc]
      have hpend' : ∀ r ∈ rows ++ [(⟨job_id, fp0, "pending"⟩ : JobFileRow)],
          r.job_id = job_id → r.status = "pending" := by
        intro r hr hj
        rcases List.mem_append.mp hr with hr | hr
        · exact hpend r hr hj
        · rw [List.mem_singleton.mp hr]
      rcases List.mem_cons.mp hfp with rfl | hfp'
      · refine ⟨⟨job_id, fp, "pending"⟩, ?_, rfl, rfl, rfl⟩
        exact jobfiles_fold_sup job_id rest _ _
          (List.mem_append.mpr (Or.inr (List.mem_singleton_self _)))
      · exact ih _ hpend' fp hfp'

/-- The insert loop never creates two rows for the same `(job_id, path)`. -/
theorem jobfiles_fold_uniq (job_id : Nat) :
    ∀ (fps : List String) (rows : List JobFileRow),
      (∀ fr ∈ rows, ∀ fr' ∈ rows, fr.job_id = job_id → fr'.job_id = job_id →
        fr.file_path = fr'.file_path → fr = fr') →
      ∀ fr ∈ fps.foldl (fun rows fp =>
          if rows.any (fun r => r.job_id == job_id && r.file_path == fp) then
            rows
          else rows ++ [⟨job_id, fp, "pending"⟩]) rows,
        ∀ fr' ∈ fps.foldl (fun rows fp =>
          if rows.any (fun r => r.job_id == job_id && r.file_path == fp) then
            rows
          else rows ++ [⟨job_id, fp, "pending"⟩]) rows,
        fr.job_id = job_id → fr'.job_id = job_id →
        fr.file_path = fr'.file_path → fr = fr' := by
  intro fps
  induction fps with
  | nil =>
    intro rows h fr h1 fr' h2
    exact h fr (by simpa using h1) fr' (by simpa using h2)
  | cons fp0 rest ih =>
    intro rows huniq
    rw [List.foldl_cons]
    by_cases hc : rows.any (fun r => r.job_id == job_id && r.file_path == fp0)
    · rw [if_pos hc]
      exact ih rows huniq
    · rw [if_neg hc]
      refine ih _ ?_
      intro fr hfr fr' hfr' hj hj' hp
      have hnew : ∀ x ∈ rows, x.job_id = job_id → x.file_path = fp0 → False := by
        intro x hx hxj hxp
        exact hc (List.any_eq_true.mpr ⟨x, hx, by simp [hxj, hxp]⟩)
      rcases List.mem_append.mp hfr with hfr | hfr <;>
        rcases List.mem_append.mp hfr' with hfr' | hfr'
      · exact huniq fr hfr fr' hfr' hj hj' hp
      · rw [List.mem_singleton.mp hfr'] at hp
        exact (hnew fr hfr hj hp).elim
      · rw [List.mem_singleton.mp hfr] at hp
        exact (hnew fr' hfr' hj' hp.symm).elim
      · rw [List.mem_singleton.mp hfr, List.mem_singleton.mp hfr']

/-- `add_job_files` leaves the jobs table unchanged. -/
theorem add_job_files_jobs (db : MetaJobsDB) (job_id : Nat)
    (fps : List String) : (add_job_files db job_id fps).jobs = db.jobs := rfl

/-- `add_job_files` unfolds to the insert loop on the per-file rows. -/
theorem add_job_files_rows (db : MetaJobsDB) (job_id : Nat)
    (fps : List String) :
    (add_job_files db job_id fps).job_files =
      fps.foldl (fun rows fp =>
        if rows.any (fun r => r.job_id == job_id && r.file_path == fp) then
          rows
        else rows ++ [⟨job_id, fp, "pending"⟩]) db.job_files := rfl

/-- A job kept by the non-terminal purge filter has a terminal status. -/
theorem status_terminal_of_kept {j : JobRow}
    (h : (!(nonTerminalStatuses.contains j.status)) = true) :
    j.status ∉ nonTerminalStatuses := by
  intro hmem
  rw [Bool.not_eq_true'] at h
  have he : nonTerminalStatuses.elem j.status = true :=
    List.elem_eq_true_of_mem hmem
  rw [show (nonTerminalStatuses.contains j.status) =
    nonTerminalStatuses.elem j.status from rfl, he] at h
  cases h

/-- C5: single active job. When the AUTOINCREMENT counter is fresh (every
stored job id is below it), running `create_indexing_job` followed by
`add_job_files` on the returned id yields a state where the new job row is
present with status `running`; every non-terminal job is the new one; every
previously non-terminal job row is gone; every per-file row is either a
fresh pending row of the new job for a scanned file or an old row owned by
a surviving terminal job of the original state; every old per-file row
whose owners were all non-terminal (hence deleted) is itself gone; every
scanned file has a pending row; and the new job has at most one row per
file path. -/
theorem single_active_job (db db1 out : MetaJobsDB) (folder_path : String)
    (max_chunks : Nat) (force_reindex : Bool) (files_total jid : Nat)
    (files : List String)
    (hfresh : ∀ j ∈ db.jobs, j.id < db.next_job_id)
    (hjob : create_indexing_job db folder_path max_chunks force_reindex
      files_total = (jid, db1))
    (hout : add_job_files db1 jid files = out) :
    (⟨jid, folder_path, max_chunks, force_reindex, "running",
        files_total, 0⟩ : JobRow) ∈ out.jobs ∧
    (∀ j ∈ out.jobs, j.status ∈ nonTerminalStatuses → j.id = jid) ∧
    (∀ j ∈ db.jobs, j.status ∈ nonTerminalStatuses → j ∉ out.jobs) ∧
    (∀ fr ∈ out.job_files,
        (fr.job_id = jid ∧ fr.file_path ∈ files ∧ fr.status = "pending") ∨
        (fr ∈ db.job_files ∧ fr.job_id ≠ jid ∧
          ∃ j ∈ db.jobs, j.status ∉ nonTerminalStatuses ∧
            j.id = fr.job_id)) ∧
    (∀ fr ∈ db.job_files, fr.job_id ≠ jid →
        (∀ j ∈ db.jobs, j.id = fr.job_id →
          j.status ∈ nonTerminalStatuses) →
        fr ∉ out.job_files) ∧
    (∀ fp ∈ files, ∃ fr ∈ out.job_files,
        fr.job_id = jid ∧ fr.file_path = fp ∧ fr.status = "pending") ∧
    (∀ fr ∈ out.job_files, ∀ fr' ∈ out.job_files,
        fr.job_id = jid → fr'.job_id = jid →
        fr.file_path = fr'.file_path → fr = fr') := by
  subst hout
  simp only [create_indexing_job, Prod.mk.injEq] at hjob
  obtain ⟨hjid, hdb1⟩ := hjob
  subst hjid
  subst hdb1
  simp only [add_job_files_jobs, add_job_files_rows]
  refine ⟨?_, ?_, ?_, ?_, ?_, ?_, ?_⟩
  · exact List.mem_append.mpr (Or.inr (List.mem_singleton_self _))
  · intro j hj hnt
    rcases List.mem_append.mp hj with hj | hj
    · exact absurd hnt (status_terminal_of_kept (List.mem_filter.mp hj).2)
    · rw [List.mem_singleton.mp hj]
  · intro j hj hnt hmem
    rcases List.mem_append.mp hmem with hm | hm
    · exact absurd hnt (status_terminal_of_kept (List.mem_filter.mp hm).2)
    · have hlt := hfresh j hj
      rw [List.mem_singleton.mp hm] at hlt
      simp at hlt
  · intro fr hfr
    rcases jobfiles_fold_mem db.next_job_id files _ fr hfr with
      hm | ⟨h1, h2, h3⟩
    · have hb := List.mem_filter.mp hm
      obtain ⟨j, hj, hjb⟩ := List.any_eq_true.mp hb.2
      have hjd : j.id = fr.job_id := by simpa using hjb
      have hjf := List.mem_filter.mp hj
      have hlt := hfresh j hjf.1
      exact Or.inr ⟨hb.1, by omega, j, hjf.1,
        status_terminal_of_kept hjf.2, hjd⟩
    · exact Or.inl ⟨h1, h2, h3⟩
  · intro fr hfr hne hown hmem
    rcases jobfiles_fold_mem db.next_job_id files _ fr hmem with
      hm | ⟨h1, _, _⟩
    · have hb := List.mem_filter.mp hm
      obtain ⟨j, hj, hjb⟩ := List.any_eq_true.mp hb.2
      have hjd : j.id = fr.job_id := by simpa using hjb
      have hjf := List.mem_filter.mp hj
      exact status_terminal_of_kept hjf.2 (hown j hjf.1 hjd)
    · exact hne h1
  · intro fp hfp
    refine jobfiles_fold_covers db.next_job_id files _ ?_ fp hfp
    intro r hr hrj
    have hb := List.mem_filter.mp hr
    obtain ⟨j, hj, hjb⟩ := List.any_eq_true.mp hb.2
    have hjd : j.id = r.job_id := by simpa using hjb
    have hlt := hfresh j (List.mem_filter.mp hj).1
    exact absurd hrj (by omega)
  · refine jobfiles_fold_uniq db.next_job_id files _ ?_
    intro a ha a' ha' haj _ _
    have hb := List.mem_filter.mp ha
    obtain ⟨j, hj, hjb⟩ := List.any_eq_true.mp hb.2
    have hjd : j.id = a.job_id := by simpa using hjb
    have hlt := hfresh j (List.mem_filter.mp hj).1
    exact absurd haj (by omega)

/-- Witness for the single-active-job theorem: the applied state. -/
theorem single_active_job_witness :
    (⟨2, "/docs", 50, false, "running", 2, 0⟩ : JobRow) ∈
      sampleJobsOut.jobs ∧
    (∀ j ∈ sampleJobsOut.jobs, j.status ∈ nonTerminalStatuses → j.id = 2) ∧
    (∀ j ∈ sampleJobsDB.jobs, j.status ∈ nonTerminalStatuses →
      j ∉ sampleJobsOut.jobs) ∧
    (∀ fr ∈ sampleJobsOut.job_files,
      (fr.job_id = 2 ∧ fr.file_path ∈ ["a.pdf", "b.pdf"] ∧
        fr.status = "pending") ∨
      (fr ∈ sampleJobsDB.job_files ∧ fr.job_id ≠ 2 ∧
        ∃ j ∈ sampleJobsDB.jobs, j.status ∉ nonTerminalStatuses ∧
          j.id = fr.job_id)) ∧
    (∀ fr ∈ sampleJobsDB.job_files, fr.job_id ≠ 2 →
      (∀ j ∈ sampleJobsDB.jobs, j.id = fr.job_id →
        j.status ∈ nonTerminalStatuses) →
      fr ∉ sampleJobsOut.job_files) ∧
    (∀ fp ∈ ["a.pdf", "b.pdf"], ∃ fr ∈ sampleJobsOut.job_files,
      fr.job_id = 2 ∧ fr.file_path = fp ∧ fr.status = "pending") ∧
    (∀ fr ∈ sampleJobsOut.job_files, ∀ fr' ∈ sampleJobsOut.job_files,
      fr.job_id = 2 → fr'.job_id = 2 → fr.file_path = fr'.file_path →
      fr = fr') :=
  single_active_job sampleJobsDB sampleJobsDB1 sampleJobsOut "/docs" 50 false
    2 2 ["a.pdf", "b.pdf"] (by decide) (by decide) (by decide)

/-- Every chunk emitted by the sliding-window loop carries the given file
path. -/
theorem chunkLoop_paths (ctx path : String) (loc : Int) (words : List String)
    (size overlap : Nat) :
    ∀ fuel start idx,
      ∀ p ∈ chunkLoop ctx path loc words size overlap fuel start idx,
        p.chunk.file_path = path := by
  intro fuel
  induction fuel with
  | zero => intro start idx p hp; simp [chunkLoop] at hp
  | succ n ih =>
    intro start idx p hp
    simp only [chunkLoop] at hp
    by_cases h1 : start < words.length
    · rw [if_pos h1] at hp
      by_cases h2 : words.length ≤ min (start + size) words.length
      · rw [if_pos h2] at hp
        rw [List.mem_singleton] at hp
        subst hp
        rfl
      · rw [if_neg h2] at hp
        rcases List.mem_cons.mp hp with rfl | hp
        · rfl
        · exact ih _ _ p hp
    · rw [if_neg h1] at hp
      cases hp

/-- Every chunk produced by `chunk_text` carries the given file path. -/
theorem chunk_text_paths (text fp : String) (loc : Int) (sz ov : Nat) :
    ∀ c ∈ chunk_text text fp loc sz ov, c.file_path = fp := by
  intro c hc
  rw [chunk_text] at hc
  obtain ⟨w, hw, rfl⟩ := List.mem_map.mp hc
  revert hw
  simp only [chunk_text_wins]
  by_cases hb : pyBlank text
  · rw [if_pos hb]
    intro hw
    cases hw
  · rw [if_neg hb]
    by_cases hsmall : (pySplit (normalize_text text)).length ≤ sz
    · rw [if_pos hsmall]
      intro hw
      rw [List.mem_singleton] at hw
      subst hw
      rfl
    · rw [if_neg hsmall]
      intro hw
      exact chunkLoop_paths _ fp loc _ sz ov _ _ _ w hw

/-- Every chunk produced by `chunk_document` carries the given file path. -/
theorem chunk_document_paths (content : List ContentItem) (fp : String)
    (sz ov : Nat) : ∀ c ∈ chunk_document content fp sz ov,
      c.file_path = fp := by
  intro c hc
  rw [chunk_document, List.mem_flatten] at hc
  obtain ⟨l, hl, hcl⟩ := hc
  obtain ⟨item, hitem, rfl⟩ := List.mem_map.mp hl
  exact chunk_text_paths item.text fp (itemLocation item) sz ov c hcl

/-- `BM25Index.add_documents` only ever appends to the stored id list: it
never removes or replaces existing entries. -/
theorem bm25_fold_ids_append :
    ∀ (l : List (String × String)) (st : BM25State),
      ∃ app, (l.foldl (fun st p =>
        if st.doc_ids.contains p.1 then st
        else ⟨st.documents ++ [bm25_tokenize p.2], st.doc_ids ++ [p.1],
          st.doc_texts ++ [p.2]⟩) st).doc_ids = st.doc_ids ++ app := by
  intro l
  induction l with
  | nil => intro st; exact ⟨[], by simp⟩
  | cons p rest ih =>
    intro st
    rw [List.foldl_cons]
    by_cases hc : st.doc_ids.contains p.1
    · rw [if_pos hc]
      exact ih st
    · rw [if_neg hc]
      obtain ⟨app, happ⟩ := ih ⟨st.documents ++ [bm25_tokenize p.2],
        st.doc_ids ++ [p.1], st.doc_texts ++ [p.2]⟩
      exact ⟨[p.1] ++ app, by rw [happ]; simp⟩

/-- Packaged form of the previous lemma. -/
theorem bm25_add_documents_ids_append (st : BM25State)
    (ids texts : List String) :
    ∃ app, (bm25_add_documents st ids texts).doc_ids =
      st.doc_ids ++ app := by
  rw [bm25_add_documents]
  exact bm25_fold_ids_append _ st

/-- Reindexing a file replaces its vector-store entries: after deleting by
path and adding the new chunks (all carrying that path), filtering the
entries by the path yields exactly the new chunk entries. -/
theorem filter_path_entries (st : VStore) (fp : String) (chunks : List Chunk)
    (hpaths : ∀ c ∈ chunks, c.file_path = fp)
    (hne : chunks.isEmpty = false) :
    (vs_add_chunks (vs_delete_by_file st fp) chunks).entries.filter
      (fun e => e.metadata.file_path == fp) =
    chunks.map (fun c => ⟨chunkEntryId c, c.text,
      ⟨c.file_path, c.slide_number, c.chunk_index⟩⟩) := by
  rw [vs_add_chunks, hne]
  simp only [Bool.false_eq_true, if_false]
  show List.filter _ ((vs_delete_by_file st fp).entries ++ _) = _
  rw [List.filter_append]
  have hdel : (vs_delete_by_file st fp).entries.filter
      (fun e => e.metadata.file_path == fp) = [] := by
    rw [List.filter_eq_nil]
    intro e he
    rw [vs_delete_by_file] at he
    have hkeep := (List.mem_filter.mp he).2
    simp only [bne_iff_ne, ne_eq] at hkeep
    simp [hkeep]
  have hkeepall : (chunks.map (fun c => (⟨chunkEntryId c, c.text,
      ⟨c.file_path, c.slide_number, c.chunk_index⟩⟩ : VSEntry))).filter
      (fun e => e.metadata.file_path == fp) =
      chunks.map (fun c => ⟨chunkEntryId c, c.text,
        ⟨c.file_path, c.slide_number, c.chunk_index⟩⟩) := by
    rw [List.filter_eq_self]
    intro e he
    obtain ⟨c, hc, rfl⟩ := List.mem_map.mp he
    simp [hpaths c hc]
  rw [hdel, hkeepall, List.nil_append]

/-- C2 counterexample: reprocessing a changed, previously indexed file
(stored hash `h1`, current hash `h2`) succeeds, yet only the vector store is
purged. The BM25 state is completely unchanged: the stale id
`f.pdf::slide1::chunk1` and its old text survive in the lexical index even
though no vector-store entry with that id remains. -/
theorem reindex_stale_bm25_counterexample :
    ms_get_file_hash c2Store.ms "f.pdf" = some "h1" ∧
    c2Job.hash_result = Except.ok "h2" ∧
    (process_single_file c2Store c2Job false 50).1.error = none ∧
    (process_single_file c2Store c2Job false 50).1.action = some "reindex" ∧
    (process_single_file c2Store c2Job false 50).2.bm = c2Store.bm ∧
    "f.pdf::slide1::chunk1" ∈
      (process_single_file c2Store c2Job false 50).2.bm.doc_ids ∧
    "old one" ∈ (process_single_file c2Store c2Job false 50).2.bm.doc_texts ∧
    ((process_single_file c2Store c2Job false 50).2.vs.entries.all
      (fun e => e.id != "f.pdf::slide1::chunk1")) = true :=
  ⟨by decide, rfl, by decide⟩

/-- C2 (amended). On the success path of reprocessing a changed, previously
indexed file, deletion happens on the vector store only: the resulting
vector store is the path-deletion followed by the new chunks (so its entries
for the path are exactly the new chunks), while the BM25 index is only ever
extended by `add_documents` — its doc-id list always keeps the old ids as a
prefix, so stale lexical entries are never removed. -/
theorem reindex_vector_only (s : Stores) (job : FileJob) (mc : Nat)
    (current_hash stored_hash : String) (mb : ℚ)
    (content : List ContentItem) (skip0 : Option String)
    (hh : job.hash_result = Except.ok current_hash)
    (hst : ms_get_file_hash s.ms job.file_path = some stored_hash)
    (hne : stored_hash ≠ current_hash)
    (hsz : job.size_mb = Except.ok mb)
    (hsup : SUPPORTED_EXTENSIONS.contains
      (pyLower (pathSuffix job.file_path)) = true)
    (hmb : ¬ MAX_FILE_SIZE_MB < mb)
    (hex : job.extract_result = Except.ok (content, skip0))
    (hemb : job.embed_result = Except.ok ())
    (hcne : content.isEmpty = false)
    (hchne : (chunk_document content job.file_path
      (get_chunk_params job.file_path).1
      (get_chunk_params job.file_path).2).isEmpty = false)
    (hlen : ¬ mc < (chunk_document content job.file_path
      (get_chunk_params job.file_path).1
      (get_chunk_params job.file_path).2).length) :
    (process_single_file s job false mc).1.error = none ∧
    (process_single_file s job false mc).1.action = some "reindex" ∧
    (process_single_file s job false mc).2.vs =
      vs_add_chunks (vs_delete_by_file s.vs job.file_path)
        (chunk_document content job.file_path
          (get_chunk_params job.file_path).1
          (get_chunk_params job.file_path).2) ∧
    (process_single_file s job false mc).2.vs.entries.filter
        (fun e => e.metadata.file_path == job.file_path) =
      (chunk_document content job.file_path
        (get_chunk_params job.file_path).1
        (get_chunk_params job.file_path).2).map (fun c =>
          ⟨chunkEntryId c, c.text,
            ⟨c.file_path, c.slide_number, c.chunk_index⟩⟩) ∧
    (process_single_file s job false mc).2.bm =
      bm25_add_documents s.bm
        ((chunk_document content job.file_path
          (get_chunk_params job.file_path).1
          (get_chunk_params job.file_path).2).map chunkEntryId)
        ((chunk_document content job.file_path
          (get_chunk_params job.file_path).1
          (get_chunk_params job.file_path).2).map (·.text)) ∧
    ∃ app, (process_single_file s job false mc).2.bm.doc_ids =
      s.bm.doc_ids ++ app := by
  have hcond : ((some stored_hash : Option String) ==
      some current_hash) = false := by
    simp [hne]
  have hPeq : process_single_file s job false mc =
      ({ file_path := job.file_path, file_name := pathName job.file_path,
         action := some "reindex",
         chunks := (chunk_document content job.file_path
           (get_chunk_params job.file_path).1
           (get_chunk_params job.file_path).2).length,
         skipped := false, skip_reason := none, chunks_would_be := none,
         error := none },
       { vs := vs_add_chunks (vs_delete_by_file s.vs job.file_path)
           (chunk_document content job.file_path
             (get_chunk_params job.file_path).1
             (get_chunk_params job.file_path).2),
         ms := ms_set_file_hash s.ms job.file_path current_hash
           (chunk_document content job.file_path
             (get_chunk_params job.file_path).1
             (get_chunk_params job.file_path).2).length,
         bm := bm25_add_documents s.bm
           ((chunk_document content job.file_path
             (get_chunk_params job.file_path).1
             (get_chunk_params job.file_path).2).map chunkEntryId)
           ((chunk_document content job.file_path
             (get_chunk_params job.file_path).1
             (get_chunk_params job.file_path).2).map (·.text)) }) := by
    simp only [process_single_file, hh, hst, hsz, hex, hemb, hcond, hcne,
      hchne, hsup, Option.isSome_some, Bool.not_false, Bool.true_and,
      Bool.not_true, Bool.false_eq_true, if_false, if_true, ite_false,
      ite_true, gt_iff_lt, if_neg hmb, if_neg hlen]
  refine ⟨by rw [hPeq], by rw [hPeq], by rw [hPeq], ?_, by rw [hPeq], ?_⟩
  · rw [hPeq]
    exact filter_path_entries s.vs job.file_path _
      (chunk_document_paths content job.file_path _ _) hchne
  · rw [hPeq]
    exact bm25_add_documents_ids_append s.bm _ _

/-- Witness for the amended reindex theorem: the changed-file scenario. -/
theorem reindex_vector_only_witness :
    (process_single_file c2Store c2Job false 50).1.error = none ∧
    (process_single_file c2Store c2Job false 50).1.action = some "reindex" ∧
    (process_single_file c2Store c2Job false 50).2.vs =
      vs_add_chunks (vs_delete_by_file c2Store.vs "f.pdf")
        (chunk_document [⟨some 1, none, "new content words"⟩] "f.pdf"
          (get_chunk_params "f.pdf").1 (get_chunk_params "f.pdf").2) ∧
    (process_single_file c2Store c2Job false 50).2.vs.entries.filter
        (fun e => e.metadata.file_path == "f.pdf") =
      (chunk_document [⟨some 1, none, "new content words"⟩] "f.pdf"
        (get_chunk_params "f.pdf").1 (get_chunk_params "f.pdf").2).map
        (fun c => ⟨chunkEntryId c, c.text,
          ⟨c.file_path, c.slide_number, c.chunk_index⟩⟩) ∧
    (process_single_file c2Store c2Job false 50).2.bm =
      bm25_add_documents c2Store.bm
        ((chunk_document [⟨some 1, none, "new content words"⟩] "f.pdf"
          (get_chunk_params "f.pdf").1
          (get_chunk_params "f.pdf").2).map chunkEntryId)
        ((chunk_document [⟨some 1, none, "new content words"⟩] "f.pdf"
          (get_chunk_params "f.pdf").1
          (get_chunk_params "f.pdf").2).map (·.text)) ∧
    ∃ app, (process_single_file c2Store c2Job false 50).2.bm.doc_ids =
      c2Store.bm.doc_ids ++ app :=
  reindex_vector_only c2Store c2Job 50 "h2" "h1" 1
    [⟨some 1, none, "new content words"⟩] none rfl rfl (by decide) rfl
    (by decide) (by decide) rfl rfl (by decide) (by decide) (by decide)

/-- The job-file status computed by `record_result` depends only on the
result: `skipped` wins, then a truthy error, else `completed`. -/
theorem record_result_snd (st : RunStats) (r : FileResult) :
    (record_result st r).2 =
      if r.skipped then "skipped"
      else if r.error.getD "" != "" then "error" else "completed" := by
  simp only [record_result]
  split_ifs <;> rfl

/-- The recorded status does not depend on the accumulated stats. -/
theorem record_result_status_congr (st st' : RunStats) (r : FileResult) :
    (record_result st r).2 = (record_result st' r).2 := by
  rw [record_result_snd, record_result_snd]

/-- A non-skipped result with a truthy error message is recorded as
`error`. -/
theorem record_result_status_error (st : RunStats) (r : FileResult)
    (hs : r.skipped = false) (he : r.error.getD "" ≠ "") :
    (record_result st r).2 = "error" := by
  rw [record_result_snd, hs]
  simp [bne_iff_ne.mpr he]

/-- A truthy error on a non-`skipped_unchanged` result appends the formatted
message to the run's error list. -/
theorem record_result_error_append (st : RunStats) (r : FileResult)
    (ha : (r.action == some "skipped_unchanged") = false)
    (he : r.error.getD "" ≠ "") :
    (record_result st r).1.errors = st.errors ++
      ["Error indexing " ++ r.file_path ++ ": " ++ r.error.getD ""] := by
  have hb : (r.error.getD "" != "") = true := bne_iff_ne.mpr he
  simp only [record_result]
  rw [if_neg (by simp [ha]), if_pos hb]

/-- `record_result` only ever appends to the error list. -/
theorem record_result_errors_mono (st : RunStats) (r : FileResult) :
    ∃ app, (record_result st r).1.errors = st.errors ++ app := by
  simp only [record_result]
  split_ifs
  all_goals first
    | exact ⟨["Error indexing " ++ r.file_path ++ ": " ++ r.error.getD ""],
        rfl⟩
    | exact ⟨[], (List.append_nil st.errors).symm⟩

/-- Shape of a per-file result: it carries the job's path; a result with a
recorded error is never `skipped` and never `skipped_unchanged`; and a hash
exception's message becomes the recorded error. -/
theorem process_single_file_error_shape (s : Stores) (job : FileJob)
    (force_reindex : Bool) (mc : Nat) :
    (process_single_file s job force_reindex mc).1.file_path =
      job.file_path ∧
    (∀ m, (process_single_file s job force_reindex mc).1.error = some m →
      (process_single_file s job force_reindex mc).1.skipped = false ∧
      ((process_single_file s job force_reindex mc).1.action ==
        some "skipped_unchanged") = false) ∧
    (∀ e, job.hash_result = Except.error e →
      (process_single_file s job force_reindex mc).1.error = some e) := by
  obtain ⟨p, hpr⟩ : ∃ p, process_single_file s job force_reindex mc = p :=
    ⟨_, rfl⟩
  obtain ⟨r, s2⟩ := p
  rw [hpr]
  simp only [process_single_file] at hpr
  repeat' split at hpr
  all_goals (
    rw [Prod.mk.injEq] at hpr;
    obtain ⟨hr, hs2⟩ := hpr;
    subst hr;
    refine ⟨rfl, fun m hm => ?_, fun e he => ?_⟩)
  all_goals first | simp_all | (refine ⟨rfl, ?_⟩; simp_all) | decide

/-- `run_batch` is the fold of the named loop body. -/
theorem run_batch_eq (s : Stores) (jobs : List FileJob)
    (force_reindex : Bool) (mc : Nat) (stats0 : RunStats) :
    run_batch s jobs force_reindex mc stats0 =
      jobs.foldl (batchStep force_reindex mc) (s, stats0, [], []) := rfl

/-- Induction workhorse for the batch loop: output lengths, error-list
monotonicity, stability of already-recorded entries, and the per-index
description of each processed file. -/
theorem batch_loop_spec (force_reindex : Bool) (mc : Nat) :
    ∀ (jobs : List FileJob) (s : Stores) (stats : RunStats)
      (statuses : List (String × String)) (results : List FileResult),
      (jobs.foldl (batchStep force_reindex mc)
        (s, stats, statuses, results)).2.2.2.length =
          results.length + jobs.length ∧
      (jobs.foldl (batchStep force_reindex mc)
        (s, stats, statuses, results)).2.2.1.length =
          statuses.length + jobs.length ∧
      (∀ e ∈ stats.errors,
        e ∈ (jobs.foldl (batchStep force_reindex mc)
          (s, stats, statuses, results)).2.1.errors) ∧
      (∀ k x, results.get? k = some x →
        (jobs.foldl (batchStep force_reindex mc)
          (s, stats, statuses, results)).2.2.2.get? k = some x) ∧
      (∀ k x, statuses.get? k = some x →
        (jobs.foldl (batchStep force_reindex mc)
          (s, stats, statuses, results)).2.2.1.get? k = some x) ∧
      (∀ i job, jobs.get? i = some job →
        ∃ r si,
          (jobs.foldl (batchStep force_reindex mc)
            (s, stats, statuses, results)).2.2.2.get?
              (results.length + i) = some r ∧
          r = (process_single_file si job force_reindex mc).1 ∧
          (jobs.foldl (batchStep force_reindex mc)
            (s, stats, statuses, results)).2.2.1.get?
              (statuses.length + i) =
            some (job.file_path, (record_result stats r).2) ∧
          (r.error.getD "" ≠ "" →
            ("Error indexing " ++ job.file_path ++ ": " ++
              r.error.getD "") ∈
              (jobs.foldl (batchStep force_reindex mc)
                (s, stats, statuses, results)).2.1.errors)) := by
  intro jobs
  induction jobs with
  | nil =>
    intro s stats statuses results
    refine ⟨by simp, by simp, ?_, ?_, ?_, ?_⟩
    · intro e he; simpa using he
    · intro k x h; simpa using h
    · intro k x h; simpa using h
    · intro i job h; simp at h
  | cons job0 rest ih =>
    intro s stats statuses results
    rw [List.foldl_cons]
    have hstep : batchStep force_reindex mc (s, stats, statuses, results)
        job0 =
      ((process_single_file s job0 force_reindex mc).2,
       (record_result stats
         (process_single_file s job0 force_reindex mc).1).1,
       statuses ++ [(job0.file_path,
         (record_result stats
           (process_single_file s job0 force_reindex mc).1).2)],
       results ++ [(process_single_file s job0 force_reindex mc).1]) := rfl
    rw [hstep]
    obtain ⟨ihA, ihB, ihC, ihD, ihE, ihF⟩ :=
      ih (process_single_file s job0 force_reindex mc).2
        (record_result stats
          (process_single_file s job0 force_reindex mc).1).1
        (statuses ++ [(job0.file_path,
          (record_result stats
            (process_single_file s job0 force_reindex mc).1).2)])
        (results ++ [(process_single_file s job0 force_reindex mc).1])
    refine ⟨?_, ?_, ?_, ?_, ?_, ?_⟩
    · rw [ihA]
      simp only [List.length_append, List.length_cons, List.length_nil]
      omega
    · rw [ihB]
      simp only [List.length_append, List.length_cons, List.length_nil]
      omega
    · intro e he
      obtain ⟨app, happ⟩ := record_result_errors_mono stats
        (process_single_file s job0 force_reindex mc).1
      exact ihC e (happ ▸ List.mem_append_left app he)
    · intro k x h
      have hk : k < results.length := by
        rcases List.get?_eq_some.mp h with ⟨hk, _⟩
        exact hk
      exact ihD k x (by rw [List.get?_append hk]; exact h)
    · intro k x h
      have hk : k < statuses.length := by
        rcases List.get?_eq_some.mp h with ⟨hk, _⟩
        exact hk
      exact ihE k x (by rw [List.get?_append hk]; exact h)
    · intro i job hij
      cases i with
      | zero =>
        obtain rfl : job0 = job := by simpa using hij
        refine ⟨(process_single_file s job0 force_reindex mc).1, s, ?_,
          rfl, ?_, ?_⟩
        · rw [Nat.add_zero]
          exact ihD results.length _ (List.get?_concat_length _ _)
        · rw [Nat.add_zero]
          exact ihE statuses.length _ (List.get?_concat_length _ _)
        · intro herr
          have hshape := process_single_file_error_shape s job0
            force_reindex mc
          obtain ⟨m, hm⟩ : ∃ m,
              (process_single_file s job0 force_reindex mc).1.error =
                some m := by
            cases hre : (process_single_file s job0 force_reindex
                mc).1.error with
            | none => rw [hre] at herr; simp at herr
            | some m => exact ⟨m, rfl⟩
          have hact := (hshape.2.1 m hm).2
          have happ := record_result_error_append stats
            (process_single_file s job0 force_reindex mc).1 hact herr
          refine ihC _ ?_
          rw [happ, hshape.1]
          exact List.mem_append_right _ (List.mem_singleton_self _)
      | succ i' =>
        obtain ⟨r, si, h1, h2, h3, h4⟩ := ihF i' job (by simpa using hij)
        simp only [List.length_append, List.length_cons, List.length_nil]
          at h1 h3
        rw [record_result_status_congr
          (record_result stats
            (process_single_file s job0 force_reindex mc).1).1 stats r]
          at h3
        refine ⟨r, si, ?_, h2, ?_, h4⟩
        · rw [show results.length + (i' + 1) =
            results.length + 1 + i' by omega]
          exact h1
        · rw [show statuses.length + (i' + 1) =
            statuses.length + 1 + i' by omega]
          exact h3

/-- C6 counterexample. A file whose processing raises an exception with an
empty message (`str(e) == ""`): the error is caught and stored, but Python
truthiness then treats it as no error at all — the file is recorded as
`completed`, nothing is appended to the run's error list, and the file even
counts as an indexed file. -/
theorem error_isolation_counterexample :
    c6Job.hash_result = Except.error "" ∧
    (run_batch c6Store [c6Job] false 50 c6Stats).2.2.2 =
      [⟨"g.pdf", "g.pdf", none, 0, false, none, none, some ""⟩] ∧
    (run_batch c6Store [c6Job] false 50 c6Stats).2.2.1 =
      [("g.pdf", "completed")] ∧
    (run_batch c6Store [c6Job] false 50 c6Stats).2.1.errors = [] ∧
    (run_batch c6Store [c6Job] false 50 c6Stats).2.1.indexed_files = 1 :=
  ⟨rfl, by decide, by decide, by decide, by decide⟩

/-- C6 (amended). Every file of a batch is processed and recorded (the
output lists have one entry per file): a per-file exception is caught and
its message stored in the result's `error` field rather than propagating,
and when that message is non-empty the file's status is `error` and the
formatted message lands in the run's error list. (The counterexample above
shows the non-empty proviso is necessary: an empty exception message is
treated as success.) -/
theorem per_file_error_isolation (s : Stores) (jobs : List FileJob)
    (force_reindex : Bool) (mc : Nat) (stats0 : RunStats) :
    (run_batch s jobs force_reindex mc stats0).2.2.2.length =
      jobs.length ∧
    (run_batch s jobs force_reindex mc stats0).2.2.1.length =
      jobs.length ∧
    ∀ i job, jobs.get? i = some job →
      ∃ r si,
        (run_batch s jobs force_reindex mc stats0).2.2.2.get? i = some r ∧
        r = (process_single_file si job force_reindex mc).1 ∧
        r.file_path = job.file_path ∧
        (∀ e, job.hash_result = Except.error e → r.error = some e) ∧
        (run_batch s jobs force_reindex mc stats0).2.2.1.get? i =
          some (job.file_path, (record_result stats0 r).2) ∧
        (r.error.getD "" ≠ "" →
          (record_result stats0 r).2 = "error" ∧
          ("Error indexing " ++ job.file_path ++ ": " ++
            r.error.getD "") ∈
            (run_batch s jobs force_reindex mc stats0).2.1.errors) := by
  obtain ⟨hA, hB, hC, hD, hE, hF⟩ :=
    batch_loop_spec force_reindex mc jobs s stats0 [] []
  rw [run_batch_eq]
  refine ⟨by simpa using hA, by simpa using hB, ?_⟩
  intro i job hij
  obtain ⟨r, si, h1, h2, h3, h4⟩ := hF i job hij
  have hshape := process_single_file_error_shape si job force_reindex mc
  refine ⟨r, si, by simpa using h1, h2, ?_, ?_, by simpa using h3, ?_⟩
  · rw [h2]
    exact hshape.1
  · intro e he
    rw [h2]
    exact hshape.2.2 e he
  · intro herr
    refine ⟨?_, h4 herr⟩
    obtain ⟨m, hm⟩ : ∃ m, r.error = some m := by
      cases hre : r.error with
      | none => rw [hre] at herr; simp at herr
      | some m => exact ⟨m, rfl⟩
    have hm' : (process_single_file si job force_reindex mc).1.error =
        some m := by rw [← h2]; exact hm
    have hsk : r.skipped = false := by
      rw [h2]
      exact (hshape.2.1 m hm').1
    exact record_result_status_error stats0 r hsk herr

end FinderAI
